import Mathlib

/-
Verification development for the keyword-deduplication pipeline of the
chrono repository (src/src/scripts/dedupeKeywords.ts).

The TypeScript pipeline is shallowly embedded:

* keyword rows are `KRow` records; embeddings are rational vectors
  (`List ℚ`) — the external embedding provider is abstracted as an oracle
  `String → List ℚ`, and the similarity score of two rows (the max of the
  two cosine similarities computed from their fixed embeddings) is
  abstracted as a fixed function `KRow → KRow → ℚ`, since every claim
  treated here holds the embeddings fixed;
* the Supabase store is modelled by a trace of `StoreOp` mutations plus a
  success oracle `StoreOp → Bool` (`false` models a rejected mutation,
  which the source turns into a thrown `Error`);
* the LLM decision call is an oracle `KRow → KRow → Except String
  LlmDecision` (`Except.error` models a failed or malformed response);
* thrown JavaScript errors are `Except.error`; `async` sequencing becomes
  ordinary sequential composition (worker pools are flattened to the
  sequential schedule, which the claims below do not distinguish);
* the union-find `find` of `groupPairs` is recursive in the source; here
  it takes explicit fuel and returns `none` on exhaustion, and the
  development proves that the fuel `pairs.length + 1` never runs out.
-/

set_option maxHeartbeats 1000000

namespace Dedupe

/-- A keyword row, mirroring the `KeywordRow` type of dedupeKeywords.ts
(`id`, `keyword`, `description`, and the two stored embedding columns). -/
structure KRow where
  id : Nat
  keyword : String
  description : Option String
  embedding : Option (List ℚ)
  name_embedding : Option (List ℚ)
  deriving DecidableEq, Repr

/-- The `LlmDecision` union type of dedupeKeywords.ts. -/
inductive LlmDecision where
  | merge (keyword : Option String) (description : Option String)
  | rename (keyword : String) (description : Option String)
  | skip
  deriving DecidableEq, Repr

/-- One store mutation issued by the pipeline: the embedding-persist
`update` of `ensureEmbeddings` (carrying only the freshly computed
columns), the full `update` of `updateKeyword`, the bulk `delete ... in`
of the aggressive branch, and the single-row `delete` of the merge
branch. -/
inductive StoreOp where
  | updateEmbeds (id : Nat) (textEmb : Option (List ℚ)) (nameEmb : Option (List ℚ))
  | updateKeywordOp (id : Nat) (keyword : String) (description : Option String)
      (embedding : List ℚ) (nameEmbedding : List ℚ)
  | deleteIds (ids : List Nat)
  | deleteOne (id : Nat)
  deriving DecidableEq, Repr

/-- Whether a store mutation is the embedding-persist update issued by
`ensureEmbeddings` (as opposed to a merge-phase update or delete). -/
def StoreOp.isEmbedUpdate : StoreOp → Bool
  | .updateEmbeds _ _ _ => true
  | _ => false

/-- Whether a store mutation touches the row with the given id. -/
def StoreOp.touches (i : Nat) : StoreOp → Bool
  | .updateEmbeds j _ _ => decide (i = j)
  | .updateKeywordOp j _ _ _ _ => decide (i = j)
  | .deleteIds ids => ids.any (fun j => decide (i = j))
  | .deleteOne j => decide (i = j)

/-- A scored candidate pair (the `Pair` type of dedupeKeywords.ts). -/
structure SPair where
  a : KRow
  b : KRow
  score : ℚ
  deriving DecidableEq, Repr

/-! ### Candidate generation (`buildPairs`)

The double loop `for i; for j > i` producing one scored pair per
unordered pair of rows. -/

/-- All scored pairs `(rows[i], rows[j])` with `i < j`, in loop order. -/
def allPairsScored (score : KRow → KRow → ℚ) : List KRow → List SPair
  | [] => []
  | r :: rest => rest.map (fun s => ⟨r, s, score r s⟩) ++ allPairsScored score rest

/-- Stable descending insertion by score: the embedding of the stable
JavaScript `Array.prototype.sort` with comparator `(x, y) => y.score -
x.score`. A new element goes before the first strictly smaller score, and
after equal scores, preserving input order of ties. -/
def insertPair (x : SPair) : List SPair → List SPair
  | [] => [x]
  | y :: rest => if x.score < y.score then y :: insertPair x rest else x :: y :: rest

/-- Stable sort, descending by score. -/
def sortPairs : List SPair → List SPair
  | [] => []
  | x :: rest => insertPair x (sortPairs rest)

/-- One step of the greedy neighbor-capping pass of `buildPairs`: read
both endpoint counts, reject the pair if either has reached the limit,
otherwise keep it and bump the counts (the `p.b.id` write happens second
and uses the count read before the `p.a.id` write, exactly as in the
source). -/
def capStep (limit : Nat) (st : List SPair × (Nat → Nat)) (p : SPair) :
    List SPair × (Nat → Nat) :=
  let cA := st.2 p.a.id
  let cB := st.2 p.b.id
  if limit ≤ cA ∨ limit ≤ cB then st
  else (st.1 ++ [p],
    fun k => if k = p.b.id then cB + 1 else if k = p.a.id then cA + 1 else st.2 k)

/-- The greedy neighbor-capping pass over a (sorted) candidate list. -/
def greedyCap (limit : Nat) (l : List SPair) : List SPair :=
  (l.foldl (capStep limit) ([], fun _ => 0)).1

/-- The threshold acceptance test `score >= THRESHOLD` of `buildPairs`. -/
def scoreGE (t : ℚ) : SPair → Bool := fun p => decide (t ≤ p.score)

/-- `buildPairs` of dedupeKeywords.ts, with the embedding phase factored
out: `score` is the fixed similarity function determined by the rows'
(already ensured) embeddings. Pairs with `score ≥ threshold` are kept
(`Number.isFinite` is vacuous over ℚ), sorted descending; when
`maxNeighborsPerKeyword > 0` the greedy capping pass runs over the sorted
candidates and its output is sorted again. -/
def buildPairs (score : KRow → KRow → ℚ) (threshold : ℚ) (limit : Nat)
    (rows : List KRow) : List SPair :=
  let cands := (allPairsScored score rows).filter (scoreGE threshold)
  let sorted := sortPairs cands
  if 0 < limit then sortPairs (greedyCap limit sorted) else sorted

/-! ### Permutation and order facts about the stable sort -/

/-- Descending sortedness by score. -/
abbrev PairwiseDesc (l : List SPair) : Prop :=
  l.Pairwise (fun x y => y.score ≤ x.score)

theorem insertPair_perm (x : SPair) (l : List SPair) : (insertPair x l).Perm (x :: l) := by
  induction l with
  | nil => simp [insertPair]
  | cons y rest ih =>
    by_cases h : x.score < y.score
    · simpa [insertPair, h] using (ih.cons y).trans (List.Perm.swap x y rest)
    · simp [insertPair, h]

theorem sortPairs_perm (l : List SPair) : (sortPairs l).Perm l := by
  induction l with
  | nil => simp [sortPairs]
  | cons x rest ih =>
    exact (insertPair_perm x (sortPairs rest)).trans (ih.cons x)

theorem mem_insertPair {z x : SPair} {l : List SPair} :
    z ∈ insertPair x l ↔ z = x ∨ z ∈ l := by
  rw [(insertPair_perm x l).mem_iff, List.mem_cons]

theorem insertPair_sorted {x : SPair} {l : List SPair} (hl : PairwiseDesc l) :
    PairwiseDesc (insertPair x l) := by
  induction l with
  | nil => simp [insertPair]
  | cons y rest ih =>
    rcases List.pairwise_cons.mp hl with ⟨hy, hrest⟩
    by_cases h : x.score < y.score
    · have hmem : ∀ z ∈ insertPair x rest, z.score ≤ y.score := by
        intro z hz
        rcases mem_insertPair.mp hz with rfl | hz'
        · exact le_of_lt h
        · exact hy z hz'
      unfold insertPair
      rw [if_pos h]
      exact List.pairwise_cons.mpr ⟨hmem, ih hrest⟩
    · have hmem : ∀ z ∈ y :: rest, z.score ≤ x.score := by
        intro z hz
        rcases List.mem_cons.mp hz with rfl | hz'
        · exact le_of_not_lt h
        · exact le_trans (hy z hz') (le_of_not_lt h)
      unfold insertPair
      rw [if_neg h]
      exact List.pairwise_cons.mpr ⟨hmem, hl⟩

theorem sortPairs_sorted (l : List SPair) : PairwiseDesc (sortPairs l) := by
  induction l with
  | nil => simp [sortPairs]
  | cons x rest ih => exact insertPair_sorted ih

/-! ### Threshold filters and the stable sort -/

theorem filter_scoreGE_filter_scoreGE {t1 t2 : ℚ} (h : t1 ≤ t2) (l : List SPair) :
    (l.filter (scoreGE t1)).filter (scoreGE t2) = l.filter (scoreGE t2) := by
  induction l with
  | nil => rfl
  | cons x rest ih =>
    by_cases h2 : t2 ≤ x.score
    · have h1 : t1 ≤ x.score := le_trans h h2
      simp [scoreGE, h1, h2, ih]
    · by_cases h1 : t1 ≤ x.score <;> simp [scoreGE, h1, h2, ih]

theorem filter_scoreGE_eq_nil {t : ℚ} {y : SPair} {m : List SPair}
    (hs : PairwiseDesc (y :: m)) (hy : ¬ t ≤ y.score) :
    (y :: m).filter (scoreGE t) = [] := by
  rw [List.filter_eq_nil_iff]
  intro z hz
  simp only [scoreGE, decide_eq_true_eq]
  rcases List.mem_cons.mp hz with rfl | hz'
  · exact hy
  · intro ht
    exact hy (le_trans ht ((List.pairwise_cons.mp hs).1 z hz'))

theorem filter_insertPair_of_ge {t : ℚ} {x : SPair} (hx : t ≤ x.score) :
    ∀ m : List SPair, PairwiseDesc m →
      (insertPair x m).filter (scoreGE t) = insertPair x (m.filter (scoreGE t)) := by
  intro m
  induction m with
  | nil =>
    intro _
    simp [insertPair, scoreGE, hx]
  | cons y rest ih =>
    intro hs
    rcases List.pairwise_cons.mp hs with ⟨_, hrest⟩
    by_cases hlt : x.score < y.score
    · have hyt : t ≤ y.score := le_trans hx (le_of_lt hlt)
      rw [insertPair, if_pos hlt,
        List.filter_cons_of_pos (by simp [scoreGE, hyt]), ih hrest,
        List.filter_cons_of_pos (by simp [scoreGE, hyt]), insertPair, if_pos hlt]
    · rw [insertPair, if_neg hlt]
      by_cases hyt : t ≤ y.score
      · rw [List.filter_cons_of_pos (by simp [scoreGE, hx]),
          List.filter_cons_of_pos (by simp [scoreGE, hyt]), insertPair, if_neg hlt]
      · have hnil : (y :: rest).filter (scoreGE t) = [] := filter_scoreGE_eq_nil hs hyt
        rw [List.filter_cons_of_pos (by simp [scoreGE, hx]), hnil]
        rfl

theorem filter_insertPair_of_lt {t : ℚ} {x : SPair} (hx : ¬ t ≤ x.score) :
    ∀ m : List SPair, (insertPair x m).filter (scoreGE t) = m.filter (scoreGE t) := by
  intro m
  induction m with
  | nil => simp [insertPair, scoreGE, hx]
  | cons y rest ih =>
    by_cases hlt : x.score < y.score
    · by_cases hyt : t ≤ y.score
      · rw [insertPair, if_pos hlt,
          List.filter_cons_of_pos (by simp [scoreGE, hyt]), ih,
          List.filter_cons_of_pos (by simp [scoreGE, hyt])]
      · rw [insertPair, if_pos hlt,
          List.filter_cons_of_neg (by simp [scoreGE, hyt]), ih,
          List.filter_cons_of_neg (by simp [scoreGE, hyt])]
    · have hyt : ¬ t ≤ y.score := by
        intro ht
        exact hx (le_trans ht (le_of_not_lt hlt))
      rw [insertPair, if_neg hlt,
        List.filter_cons_of_neg (by simp [scoreGE, hx])]

theorem filter_sortPairs (t : ℚ) (l : List SPair) :
    (sortPairs l).filter (scoreGE t) = sortPairs (l.filter (scoreGE t)) := by
  induction l with
  | nil => rfl
  | cons x rest ih =>
    by_cases hx : t ≤ x.score
    · rw [sortPairs, filter_insertPair_of_ge hx _ (sortPairs_sorted rest), ih,
        List.filter_cons_of_pos (by simp [scoreGE, hx]), sortPairs]
    · rw [sortPairs, filter_insertPair_of_lt hx, ih,
        List.filter_cons_of_neg (by simp [scoreGE, hx])]

theorem sorted_filter_append {t : ℚ} :
    ∀ l : List SPair, PairwiseDesc l → ∃ rest, l = l.filter (scoreGE t) ++ rest := by
  intro l
  induction l with
  | nil => exact fun _ => ⟨[], rfl⟩
  | cons x l' ih =>
    intro hs
    rcases List.pairwise_cons.mp hs with ⟨_, hl'⟩
    by_cases hx : t ≤ x.score
    · rcases ih hl' with ⟨r, hr⟩
      refine ⟨r, ?_⟩
      rw [List.filter_cons_of_pos (by simp [scoreGE, hx]), List.cons_append, ← hr]
    · exact ⟨x :: l', by rw [filter_scoreGE_eq_nil hs hx, List.nil_append]⟩

theorem foldl_capStep_fst (limit : Nat) :
    ∀ (l : List SPair) (st : List SPair × (Nat → Nat)),
      ∃ e, (l.foldl (capStep limit) st).1 = st.1 ++ e := by
  intro l
  induction l with
  | nil => exact fun st => ⟨[], by simp⟩
  | cons p rest ih =>
    intro st
    rcases ih (capStep limit st p) with ⟨e, he⟩
    by_cases hc : limit ≤ st.2 p.a.id ∨ limit ≤ st.2 p.b.id
    · have h1 : capStep limit st p = st := by simp [capStep, hc]
      exact ⟨e, by rw [List.foldl_cons, he, h1]⟩
    · have h1 : (capStep limit st p).1 = st.1 ++ [p] := by simp [capStep, hc]
      exact ⟨p :: e, by rw [List.foldl_cons, he, h1, List.append_assoc]; rfl⟩

/-- C3 (helper form): the whole accepted-pair list at the higher
threshold is a left factor of the greedy pass over the lower-threshold
list. -/
theorem greedyCap_threshold_split (score : KRow → KRow → ℚ) (rows : List KRow)
    (limit : Nat) {t1 t2 : ℚ} (h : t1 ≤ t2) :
    ∃ e, greedyCap limit (sortPairs ((allPairsScored score rows).filter (scoreGE t1)))
      = greedyCap limit (sortPairs ((allPairsScored score rows).filter (scoreGE t2))) ++ e := by
  have hc : (allPairsScored score rows).filter (scoreGE t2)
      = ((allPairsScored score rows).filter (scoreGE t1)).filter (scoreGE t2) :=
    (filter_scoreGE_filter_scoreGE h _).symm
  have hs2 : sortPairs ((allPairsScored score rows).filter (scoreGE t2))
      = (sortPairs ((allPairsScored score rows).filter (scoreGE t1))).filter (scoreGE t2) := by
    rw [hc, ← filter_sortPairs]
  rcases sorted_filter_append (t := t2)
      (sortPairs ((allPairsScored score rows).filter (scoreGE t1)))
      (sortPairs_sorted _) with ⟨tail, htail⟩
  rcases foldl_capStep_fst limit tail
      ((sortPairs ((allPairsScored score rows).filter (scoreGE t2))).foldl
        (capStep limit) ([], fun _ => 0)) with ⟨e, he⟩
  refine ⟨e, ?_⟩
  unfold greedyCap
  rw [show sortPairs ((allPairsScored score rows).filter (scoreGE t1))
      = sortPairs ((allPairsScored score rows).filter (scoreGE t2)) ++ tail by
    rw [hs2]; exact htail]
  rw [List.foldl_append, he]

/-- C3: for a fixed entity list with fixed embeddings (hence a fixed
similarity function) and a fixed neighbor cap, raising the similarity
threshold never adds candidate pairs: the accepted-pair list at the
higher threshold is contained in the one at the lower threshold, and
is no longer, even after the greedy neighbor-capping pass. -/
theorem buildPairs_threshold_monotone (score : KRow → KRow → ℚ) (rows : List KRow)
    (limit : Nat) (t1 t2 : ℚ) (h : t1 ≤ t2) :
    (∀ p, p ∈ buildPairs score t2 limit rows → p ∈ buildPairs score t1 limit rows) ∧
    (buildPairs score t2 limit rows).length ≤ (buildPairs score t1 limit rows).length := by
  have hc : (allPairsScored score rows).filter (scoreGE t2)
      = ((allPairsScored score rows).filter (scoreGE t1)).filter (scoreGE t2) :=
    (filter_scoreGE_filter_scoreGE h _).symm
  have hs2 : sortPairs ((allPairsScored score rows).filter (scoreGE t2))
      = (sortPairs ((allPairsScored score rows).filter (scoreGE t1))).filter (scoreGE t2) := by
    rw [hc, ← filter_sortPairs]
  rcases sorted_filter_append (t := t2)
      (sortPairs ((allPairsScored score rows).filter (scoreGE t1)))
      (sortPairs_sorted _) with ⟨tail, htail⟩
  have hsplit : sortPairs ((allPairsScored score rows).filter (scoreGE t1))
      = sortPairs ((allPairsScored score rows).filter (scoreGE t2)) ++ tail := by
    rw [hs2]; exact htail
  unfold buildPairs
  by_cases hl : 0 < limit
  · rcases greedyCap_threshold_split score rows limit h with ⟨e, hgc⟩
    rw [if_pos hl, if_pos hl]
    constructor
    · intro p hp
      have hp2 : p ∈ greedyCap limit (sortPairs ((allPairsScored score rows).filter (scoreGE t2))) :=
        (sortPairs_perm _).mem_iff.mp hp
      refine (sortPairs_perm _).mem_iff.mpr ?_
      rw [hgc]
      exact List.mem_append_left _ hp2
    · rw [(sortPairs_perm _).length_eq, (sortPairs_perm _).length_eq, hgc,
        List.length_append]
      exact Nat.le_add_right _ _
  · rw [if_neg hl, if_neg hl]
    constructor
    · intro p hp
      rw [hsplit]
      exact List.mem_append_left _ hp
    · rw [hsplit, List.length_append]
      exact Nat.le_add_right _ _

/-- Fixed small instance used by witnesses: three rows and a fixed
similarity function with sim(1,2) = 9/10 and the other pairs at 1/2. -/
def wRow (n : Nat) : KRow := ⟨n, "k", none, none, none⟩

/-- Witness similarity function on the small instance. -/
def wScore : KRow → KRow → ℚ := fun a b => if a.id + b.id ≤ 3 then 9/10 else 1/2

/-- Witness for C3 at a concrete input. -/
theorem buildPairs_threshold_monotone_witness :
    (4:ℚ)/10 ≤ 7/10 ∧
    (buildPairs wScore (7/10) 30 [wRow 1, wRow 2, wRow 3]).length ≤
      (buildPairs wScore (4/10) 30 [wRow 1, wRow 2, wRow 3]).length :=
  ⟨by norm_num,
    (buildPairs_threshold_monotone wScore [wRow 1, wRow 2, wRow 3] 30 (4/10) (7/10)
      (by norm_num)).2⟩

/-! ### The neighbor-cap invariant (C4) -/

/-- The number of accepted pairs referencing entity `e` as an endpoint. -/
def occCount (e : Nat) (l : List SPair) : Nat :=
  (l.filter (fun p => decide (p.a.id = e ∨ p.b.id = e))).length

theorem occCount_append (e : Nat) (l1 l2 : List SPair) :
    occCount e (l1 ++ l2) = occCount e l1 + occCount e l2 := by
  unfold occCount
  rw [List.filter_append, List.length_append]

theorem capStep_invariant (limit : Nat) (st : List SPair × (Nat → Nat)) (p : SPair)
    (h : ∀ e, occCount e st.1 ≤ st.2 e ∧ st.2 e ≤ limit) :
    ∀ e, occCount e (capStep limit st p).1 ≤ (capStep limit st p).2 e ∧
      (capStep limit st p).2 e ≤ limit := by
  intro e
  by_cases hc : limit ≤ st.2 p.a.id ∨ limit ≤ st.2 p.b.id
  · simpa [capStep, hc] using h e
  · rcases not_or.mp hc with ⟨hA, hB⟩
    have h1 : (capStep limit st p).1 = st.1 ++ [p] := by simp [capStep, hc]
    have h2 : ∀ k, (capStep limit st p).2 k
        = if k = p.b.id then st.2 p.b.id + 1
          else if k = p.a.id then st.2 p.a.id + 1 else st.2 k := by
      intro k
      simp [capStep, hc]
    rw [h1, h2 e]
    have hocc1 : occCount e (st.1 ++ [p]) ≤ occCount e st.1 + 1 := by
      rw [occCount_append]
      have hle : occCount e [p] ≤ 1 := by
        unfold occCount
        by_cases hp : p.a.id = e ∨ p.b.id = e <;> simp [hp]
      omega
    by_cases hb : e = p.b.id
    · subst hb
      rw [if_pos rfl]
      have h3 := (h p.b.id).1
      exact ⟨by omega, by omega⟩
    · rw [if_neg hb]
      by_cases ha : e = p.a.id
      · subst ha
        rw [if_pos rfl]
        have h3 := (h p.a.id).1
        exact ⟨by omega, by omega⟩
      · rw [if_neg ha]
        have h0 : occCount e (st.1 ++ [p]) = occCount e st.1 := by
          rw [occCount_append]
          have hz : occCount e [p] = 0 := by
            unfold occCount
            have hp : ¬ (p.a.id = e ∨ p.b.id = e) := by
              push_neg
              exact ⟨fun hx => ha hx.symm, fun hx => hb hx.symm⟩
            simp [hp]
          omega
        have h3 := (h e).1
        exact ⟨by omega, (h e).2⟩

theorem foldl_capStep_invariant (limit : Nat) :
    ∀ (l : List SPair) (st : List SPair × (Nat → Nat)),
      (∀ e, occCount e st.1 ≤ st.2 e ∧ st.2 e ≤ limit) →
      ∀ e, occCount e (l.foldl (capStep limit) st).1 ≤ limit := by
  intro l
  induction l with
  | nil =>
    intro st h e
    exact le_trans (h e).1 (h e).2
  | cons p rest ih =>
    intro st h e
    rw [List.foldl_cons]
    exact ih (capStep limit st p) (capStep_invariant limit st p h) e

/-- C4: with a positive neighbor cap, every entity is an endpoint of at
most `limit` pairs in the candidate list returned by `buildPairs`. -/
theorem buildPairs_neighbor_cap (score : KRow → KRow → ℚ) (rows : List KRow)
    (t : ℚ) (limit : Nat) (hl : 0 < limit) (e : Nat) :
    occCount e (buildPairs score t limit rows) ≤ limit := by
  unfold buildPairs
  rw [if_pos hl]
  have hperm : occCount e (sortPairs (greedyCap limit
        (sortPairs ((allPairsScored score rows).filter (scoreGE t)))))
      = occCount e (greedyCap limit
        (sortPairs ((allPairsScored score rows).filter (scoreGE t)))) := by
    unfold occCount
    exact ((sortPairs_perm _).filter _).length_eq
  rw [hperm]
  exact foldl_capStep_invariant limit _ ([], fun _ => 0)
    (fun e => ⟨by simp [occCount], Nat.zero_le _⟩) e

/-- Witness for C4 at a concrete input. -/
theorem buildPairs_neighbor_cap_witness :
    0 < 30 ∧ occCount 1 (buildPairs wScore (7/10) 30 [wRow 1, wRow 2, wRow 3]) ≤ 30 :=
  ⟨by decide,
    buildPairs_neighbor_cap wScore [wRow 1, wRow 2, wRow 3] (7/10) 30 (by decide) 1⟩

/-! ### Union-find clustering (`groupPairs`)

The source's `parent` map (a JS `Map<number, number>`) is modelled as a
total function `Nat → Nat` whose default is the identity: `parent.get(x)`
returning `undefined` and a self-parent behave identically in `find`.
The recursive `find` takes explicit fuel and returns `none` on
exhaustion; `groupPairs` runs it with fuel `pairs.length + 1`, and the
development proves this fuel never runs out. -/

/-- Pointwise update of a parent map (`parent.set x v`). -/
def upd (f : Nat → Nat) (x v : Nat) : Nat → Nat := fun y => if y = x then v else f y

/-- `find` of `groupPairs`, with explicit fuel and path compression:
every node on the walked chain is re-pointed to the root. -/
def find : Nat → (Nat → Nat) → Nat → Option (Nat × (Nat → Nat))
  | 0, _, _ => none
  | fuel + 1, f, x =>
    if f x = x then some (x, f)
    else
      match find fuel f (f x) with
      | none => none
      | some (r, f1) => some (r, upd f1 x r)

/-- `union` of `groupPairs`: find both roots (threading the compressed
map) and attach the second root under the first when they differ. -/
def union (fuel : Nat) (f : Nat → Nat) (a b : Nat) : Option (Nat → Nat) :=
  match find fuel f a with
  | none => none
  | some (pa, f1) =>
    match find fuel f1 b with
    | none => none
    | some (pb, f2) => some (if pa = pb then f2 else upd f2 pb pa)

/-- The first loop of `groupPairs`: union every accepted pair. -/
def runUnions (fuel : Nat) : (Nat → Nat) → List SPair → Option (Nat → Nat)
  | f, [] => some f
  | f, p :: rest =>
    match union fuel f p.a.id p.b.id with
    | none => none
    | some f' => runUnions fuel f' rest

/-- First-match association lookup (the `groups[root]` read). -/
def lookupA {β : Type} : List (Nat × β) → Nat → Option β
  | [], _ => none
  | (k, v) :: rest, x => if k = x then some v else lookupA rest x

/-- Association update: replace the first binding of the key, or append a
new binding (the `groups[root] = ...` write). -/
def setA {β : Type} : List (Nat × β) → Nat → β → List (Nat × β)
  | [], k, v => [(k, v)]
  | (k', v') :: rest, k, v =>
    if k' = k then (k, v) :: rest else (k', v') :: setA rest k v

/-- Bucket insertion for one pair: fetch (or create) the root's bucket
and push `pair.a` then `pair.b`, each only when no row with the same id
is already present. -/
def addPairRows (bs : List (Nat × List KRow)) (root : Nat) (a b : KRow) :
    List (Nat × List KRow) :=
  let cur := (lookupA bs root).getD []
  let cur1 := if cur.any (fun k => decide (k.id = a.id)) then cur else cur ++ [a]
  let cur2 := if cur1.any (fun k => decide (k.id = b.id)) then cur1 else cur1 ++ [b]
  setA bs root cur2

/-- The second loop of `groupPairs`: re-find the root of each pair's
first member (with compression) and add both members to its bucket. -/
def runBuckets (fuel : Nat) :
    (Nat → Nat) → List (Nat × List KRow) → List SPair →
      Option ((Nat → Nat) × List (Nat × List KRow))
  | f, bs, [] => some (f, bs)
  | f, bs, p :: rest =>
    match find fuel f p.a.id with
    | none => none
    | some (root, f') => runBuckets fuel f' (addPairRows bs root p.a p.b) rest

/-- Ascending stable insertion by id, the embedding of
`g.sort((x, y) => x.id - y.id)`. -/
def insertById (x : KRow) : List KRow → List KRow
  | [] => [x]
  | y :: rest => if y.id < x.id then y :: insertById x rest else x :: y :: rest

/-- Stable sort, ascending by id. -/
def sortById : List KRow → List KRow
  | [] => []
  | x :: rest => insertById x (sortById rest)

/-- `groupPairs` of dedupeKeywords.ts: union all pairs, bucket rows by
the root of each pair's first member, sort each bucket ascending by id,
and keep buckets of size at least 2 (also at most `maxGroupSize` when
the cap is positive; the source's config uses `maxGroupSize = 0`,
meaning no cap). -/
def groupPairs (maxGroupSize : Nat) (pairs : List SPair) : Option (List (List KRow)) :=
  match runUnions (pairs.length + 1) (fun x => x) pairs with
  | none => none
  | some f =>
    match runBuckets (pairs.length + 1) f [] pairs with
    | none => none
    | some (_, bs) =>
      let result := bs.map (fun e => sortById e.2)
      some (if 0 < maxGroupSize
        then result.filter (fun g => decide (2 ≤ g.length) && decide (g.length ≤ maxGroupSize))
        else result.filter (fun g => decide (2 ≤ g.length)))

/-! ### Parent-map invariants -/

/-- The chain from `x` reaches a fixpoint of `f` within `n` steps. -/
def RR (f : Nat → Nat) (x n : Nat) : Prop := f (f^[n] x) = f^[n] x

/-- Every chain of the parent map reaches a root within `k` steps. -/
def Inv (f : Nat → Nat) (k : Nat) : Prop := ∀ x, RR f x k

/-- `r` is the root of `x`'s parent chain. -/
def IsRootOf (f : Nat → Nat) (x r : Nat) : Prop := (∃ n, f^[n] x = r) ∧ f r = r

/-- `u` and `v` have a common root. -/
def SameRoot (f : Nat → Nat) (u v : Nat) : Prop :=
  ∃ ρ, IsRootOf f u ρ ∧ IsRootOf f v ρ

theorem iterate_stable {f : Nat → Nat} {x r n : Nat} (hn : f^[n] x = r) (hr : f r = r)
    {m : Nat} (hnm : n ≤ m) : f^[m] x = r := by
  have heq : m = (m - n) + n := (Nat.sub_add_cancel hnm).symm
  rw [heq, Function.iterate_add_apply, hn, Function.iterate_fixed hr]

theorem RR_mono {f : Nat → Nat} {x n m : Nat} (h : RR f x n) (hnm : n ≤ m) : RR f x m := by
  unfold RR at h ⊢
  rw [iterate_stable (rfl : f^[n] x = f^[n] x) h hnm]
  exact h

theorem Inv_mono {f : Nat → Nat} {k m : Nat} (h : Inv f k) (hkm : k ≤ m) : Inv f m :=
  fun x => RR_mono (h x) hkm

theorem isRootOf_unique {f : Nat → Nat} {x r1 r2 : Nat}
    (h1 : IsRootOf f x r1) (h2 : IsRootOf f x r2) : r1 = r2 := by
  rcases h1 with ⟨⟨n1, hn1⟩, hr1⟩
  rcases h2 with ⟨⟨n2, hn2⟩, hr2⟩
  rcases le_total n1 n2 with hle | hle
  · rw [← hn2, iterate_stable hn1 hr1 hle]
  · rw [← hn1, iterate_stable hn2 hr2 hle]

theorem isRootOf_self {f : Nat → Nat} {r : Nat} (hr : f r = r) : IsRootOf f r r :=
  ⟨⟨0, rfl⟩, hr⟩

theorem isRootOf_step {f : Nat → Nat} {x r : Nat} (h : IsRootOf f (f x) r) :
    IsRootOf f x r := by
  rcases h with ⟨⟨n, hn⟩, hr⟩
  exact ⟨⟨n + 1, by rw [Function.iterate_succ_apply]; exact hn⟩, hr⟩

theorem isRootOf_total {f : Nat → Nat} {k : Nat} (h : Inv f k) (y : Nat) :
    ∃ ρ, IsRootOf f y ρ :=
  ⟨f^[k] y, ⟨⟨k, rfl⟩, h y⟩⟩

/-! Path-compression updates: re-pointing a non-root `x` directly at a
root `ρ` preserves chain bounds and every root assignment. -/

theorem RR_upd_compress {f : Nat → Nat} {x ρ : Nat} (hρ : f ρ = ρ) (hρx : ρ ≠ x)
    (hx : f x ≠ x) : ∀ n y, RR f y n → RR (upd f x ρ) y n := by
  intro n
  induction n with
  | zero =>
    intro y hy
    unfold RR at hy ⊢
    simp only [Function.iterate_zero_apply] at hy ⊢
    have hyx : y ≠ x := by
      intro h
      rw [h] at hy
      exact hx hy
    simp only [upd]
    rw [if_neg hyx]
    exact hy
  | succ n ih =>
    intro y hy
    by_cases hyx : y = x
    · subst hyx
      have hgy : upd f y ρ y = ρ := by simp [upd]
      have hgρ : upd f y ρ ρ = ρ := by
        simp only [upd]
        rw [if_neg hρx]
        exact hρ
      unfold RR
      rw [Function.iterate_succ_apply, hgy, Function.iterate_fixed hgρ]
      exact hgρ
    · have hy' : RR f (f y) n := by
        unfold RR at hy ⊢
        rw [Function.iterate_succ_apply] at hy
        exact hy
      have ihy := ih (f y) hy'
      unfold RR at ihy ⊢
      have hgy : upd f x ρ y = f y := by simp [upd, hyx]
      rw [Function.iterate_succ_apply, hgy]
      exact ihy

theorem chain_upd_compress {f : Nat → Nat} {x ρ : Nat}
    (hxρ : IsRootOf f x ρ) (hx : f x ≠ x) {σ : Nat} (hσ : f σ = σ) :
    ∀ n y, f^[n] y = σ → ∃ m, (upd f x ρ)^[m] y = σ := by
  intro n
  induction n with
  | zero =>
    intro y hn
    exact ⟨0, hn⟩
  | succ n ih =>
    intro y hn
    by_cases hyx : y = x
    · subst hyx
      have hσρ : σ = ρ := isRootOf_unique ⟨⟨n + 1, hn⟩, hσ⟩ hxρ
      subst hσρ
      exact ⟨1, by simp [upd]⟩
    · have hn' : f^[n] (f y) = σ := by
        rw [← Function.iterate_succ_apply]
        exact hn
      rcases ih (f y) hn' with ⟨m, hm⟩
      refine ⟨m + 1, ?_⟩
      rw [Function.iterate_succ_apply]
      have hgy : upd f x ρ y = f y := by simp [upd, hyx]
      rw [hgy]
      exact hm

theorem isRootOf_upd_compress {f : Nat → Nat} {x ρ : Nat}
    (hxρ : IsRootOf f x ρ) (hx : f x ≠ x) :
    ∀ y σ, IsRootOf f y σ → IsRootOf (upd f x ρ) y σ := by
  intro y σ hyσ
  rcases hyσ with ⟨⟨n, hn⟩, hσ⟩
  have hσx : σ ≠ x := by
    intro h
    rw [h] at hσ
    exact hx hσ
  rcases chain_upd_compress hxρ hx hσ n y hn with ⟨m, hm⟩
  refine ⟨⟨m, hm⟩, ?_⟩
  simp only [upd]
  rw [if_neg hσx]
  exact hσ

theorem isRootOf_upd_compress_iff {f : Nat → Nat} {k x ρ : Nat} (hI : Inv f k)
    (hxρ : IsRootOf f x ρ) (hx : f x ≠ x) :
    ∀ y σ, IsRootOf f y σ ↔ IsRootOf (upd f x ρ) y σ := by
  intro y σ
  constructor
  · exact isRootOf_upd_compress hxρ hx y σ
  · intro hg
    rcases isRootOf_total hI y with ⟨ρ', hρ'⟩
    have hg' := isRootOf_upd_compress hxρ hx y ρ' hρ'
    rw [isRootOf_unique hg hg']
    exact hρ'

/-! Union updates: attaching the root `b` under a different root `ρ`
costs at most one extra chain step and rewrites roots `b` to `ρ`. -/

theorem RR_upd_root {f : Nat → Nat} {ρ b : Nat} (hρ : f ρ = ρ) (hρb : ρ ≠ b) :
    ∀ n y, RR f y n → RR (upd f b ρ) y (n + 1) := by
  have hgb : upd f b ρ b = ρ := by simp [upd]
  have hgρ : upd f b ρ ρ = ρ := by
    simp only [upd]
    rw [if_neg hρb]
    exact hρ
  intro n
  induction n with
  | zero =>
    intro y hy
    unfold RR at hy
    simp only [Function.iterate_zero_apply] at hy
    by_cases hyb : y = b
    · subst hyb
      unfold RR
      rw [Function.iterate_succ_apply, hgb, Function.iterate_fixed hgρ]
      exact hgρ
    · have h0 : RR (upd f b ρ) y 0 := by
        unfold RR
        simp only [Function.iterate_zero_apply]
        simp only [upd]
        rw [if_neg hyb]
        exact hy
      exact RR_mono h0 (by omega)
  | succ n ih =>
    intro y hy
    by_cases hyb : y = b
    · subst hyb
      unfold RR
      rw [Function.iterate_succ_apply, hgb, Function.iterate_fixed hgρ]
      exact hgρ
    · have hy' : RR f (f y) n := by
        unfold RR at hy ⊢
        rw [Function.iterate_succ_apply] at hy
        exact hy
      have ihy := ih (f y) hy'
      unfold RR at ihy ⊢
      have hgy : upd f b ρ y = f y := by simp [upd, hyb]
      rw [Function.iterate_succ_apply, hgy]
      exact ihy

theorem chain_upd_root {f : Nat → Nat} {ρ b : Nat} (hρb : ρ ≠ b)
    (hb : f b = b) :
    ∀ n y σ, f^[n] y = σ → f σ = σ →
      ∃ m, (upd f b ρ)^[m] y = (if σ = b then ρ else σ) := by
  intro n
  induction n with
  | zero =>
    intro y σ hn _
    have hyσ : y = σ := hn
    by_cases hσb : σ = b
    · refine ⟨1, ?_⟩
      rw [if_pos hσb]
      subst hσb
      subst hyσ
      simp [upd]
    · refine ⟨0, ?_⟩
      rw [if_neg hσb]
      exact hyσ
  | succ n ih =>
    intro y σ hn hσ
    by_cases hyb : y = b
    · have hσb : σ = b := by
        rw [← hn, hyb, Function.iterate_fixed hb]
      refine ⟨1, ?_⟩
      rw [if_pos hσb, Function.iterate_one, hyb]
      simp [upd]
    · have hn' : f^[n] (f y) = σ := by
        rw [← Function.iterate_succ_apply]
        exact hn
      rcases ih (f y) σ hn' hσ with ⟨m, hm⟩
      refine ⟨m + 1, ?_⟩
      rw [Function.iterate_succ_apply]
      have hgy : upd f b ρ y = f y := by simp [upd, hyb]
      rw [hgy]
      exact hm

theorem isRootOf_upd_root {f : Nat → Nat} {ρ b : Nat}
    (hρ : f ρ = ρ) (hρb : ρ ≠ b) (hb : f b = b) :
    ∀ y σ, IsRootOf f y σ → IsRootOf (upd f b ρ) y (if σ = b then ρ else σ) := by
  intro y σ hyσ
  rcases hyσ with ⟨⟨n, hn⟩, hσ⟩
  rcases chain_upd_root hρb hb n y σ hn hσ with ⟨m, hm⟩
  refine ⟨⟨m, hm⟩, ?_⟩
  by_cases hσb : σ = b
  · rw [if_pos hσb]
    simp only [upd]
    rw [if_neg hρb]
    exact hρ
  · rw [if_neg hσb]
    simp only [upd]
    rw [if_neg hσb]
    exact hσ

/-! The `find` and `union` specifications. -/

theorem find_spec : ∀ (fuel : Nat) (f : Nat → Nat) (x n k : Nat),
    Inv f k → RR f x n → n < fuel →
    ∃ r f', find fuel f x = some (r, f') ∧ f r = r ∧ IsRootOf f x r ∧ Inv f' k ∧
      (∀ y σ, IsRootOf f y σ ↔ IsRootOf f' y σ) := by
  intro fuel
  induction fuel with
  | zero =>
    intro f x n k _ _ hn
    omega
  | succ fuel ih =>
    intro f x n k hI hx hn
    by_cases hfx : f x = x
    · exact ⟨x, f, by simp [find, hfx], hfx, isRootOf_self hfx, hI, fun y σ => Iff.rfl⟩
    · have hn0 : n ≠ 0 := by
        intro h
        subst h
        unfold RR at hx
        simp only [Function.iterate_zero_apply] at hx
        exact hfx hx
      obtain ⟨m, rfl⟩ : ∃ m, n = m + 1 := ⟨n - 1, by omega⟩
      have hx' : RR f (f x) m := by
        unfold RR at hx ⊢
        rw [Function.iterate_succ_apply] at hx
        exact hx
      rcases ih f (f x) m k hI hx' (by omega) with ⟨r, f1, heq, hr, hroot, hI1, hiff⟩
      have hrootx : IsRootOf f x r := isRootOf_step hroot
      have hrx : r ≠ x := by
        intro h
        subst h
        exact hfx hrootx.2
      have hrootx1 : IsRootOf f1 x r := (hiff x r).mp hrootx
      have hf1x : f1 x ≠ x := by
        intro h
        exact hrx (isRootOf_unique hrootx1 (isRootOf_self h))
      have hf1r : f1 r = r := ((hiff r r).mp (isRootOf_self hr)).2
      refine ⟨r, upd f1 x r, ?_, hr, hrootx, ?_, ?_⟩
      · simp [find, hfx, heq]
      · intro y
        exact RR_upd_compress hf1r hrx hf1x k y (hI1 y)
      · intro y σ
        exact (hiff y σ).trans (isRootOf_upd_compress_iff hI1 hrootx1 hf1x y σ)

theorem union_spec (fuel : Nat) (f : Nat → Nat) (a b k : Nat)
    (hI : Inv f k) (hk : k < fuel) :
    ∃ f', union fuel f a b = some f' ∧ Inv f' (k + 1) ∧ SameRoot f' a b ∧
      (∀ u v, SameRoot f u v → SameRoot f' u v) := by
  rcases find_spec fuel f a k k hI (hI a) hk with ⟨ra, f1, heq1, _, hroota, hI1, hiff1⟩
  rcases find_spec fuel f1 b k k hI1 (hI1 b) hk with ⟨rb, f2, heq2, _, hrootb1, hI2, hiff2⟩
  have hroota2 : IsRootOf f2 a ra := (hiff2 a ra).mp ((hiff1 a ra).mp hroota)
  have hrootb2 : IsRootOf f2 b rb := (hiff2 b rb).mp hrootb1
  have hra2 : f2 ra = ra := hroota2.2
  have hrb2 : f2 rb = rb := hrootb2.2
  by_cases hpp : ra = rb
  · refine ⟨f2, by simp [union, heq1, heq2, hpp], Inv_mono hI2 (by omega),
      ⟨ra, hroota2, by rw [hpp]; exact hrootb2⟩, ?_⟩
    rintro u v ⟨σ, hu, hv⟩
    exact ⟨σ, (hiff2 u σ).mp ((hiff1 u σ).mp hu), (hiff2 v σ).mp ((hiff1 v σ).mp hv)⟩
  · refine ⟨upd f2 rb ra, by simp [union, heq1, heq2, hpp], ?_, ?_, ?_⟩
    · intro y
      exact RR_upd_root hra2 hpp k y (hI2 y)
    · refine ⟨ra, ?_, ?_⟩
      · have h := isRootOf_upd_root hra2 hpp hrb2 a ra hroota2
        rwa [if_neg hpp] at h
      · have h := isRootOf_upd_root hra2 hpp hrb2 b rb hrootb2
        rwa [if_pos rfl] at h
    · rintro u v ⟨σ, hu, hv⟩
      have hu2 := (hiff2 u σ).mp ((hiff1 u σ).mp hu)
      have hv2 := (hiff2 v σ).mp ((hiff1 v σ).mp hv)
      exact ⟨if σ = rb then ra else σ,
        isRootOf_upd_root hra2 hpp hrb2 u σ hu2,
        isRootOf_upd_root hra2 hpp hrb2 v σ hv2⟩

theorem runUnions_spec (fuel : Nat) :
    ∀ (ps : List SPair) (f : Nat → Nat) (k : Nat), Inv f k → k + ps.length < fuel →
      ∃ f', runUnions fuel f ps = some f' ∧ Inv f' (k + ps.length) ∧
        (∀ u v, SameRoot f u v → SameRoot f' u v) ∧
        (∀ p ∈ ps, SameRoot f' p.a.id p.b.id) := by
  intro ps
  induction ps with
  | nil =>
    intro f k hI _
    exact ⟨f, rfl, by simpa using hI, fun u v h => h, by simp⟩
  | cons p rest ih =>
    intro f k hI hk
    have hk1 : k < fuel := by
      simp only [List.length_cons] at hk
      omega
    rcases union_spec fuel f p.a.id p.b.id k hI hk1 with ⟨f1, heq, hI1, hsame, hpres⟩
    have hk2 : (k + 1) + rest.length < fuel := by
      simp only [List.length_cons] at hk
      omega
    rcases ih f1 (k + 1) hI1 hk2 with ⟨f', heq', hI', hpres', hall⟩
    refine ⟨f', by simp [runUnions, heq, heq'], ?_, fun u v h => hpres' u v (hpres u v h), ?_⟩
    · have harith : k + 1 + rest.length = k + (p :: rest).length := by
        simp only [List.length_cons]
        omega
      rw [← harith]
      exact hI'
    · intro q hq
      rcases List.mem_cons.mp hq with rfl | hq'
      · exact hpres' _ _ hsame
      · exact hall q hq'

/-! ### Bucket invariants and the second loop -/

/-- Invariant of the bucket association list: keys (bucket roots) are
unique, every row sits in the bucket keyed by its root, and ids inside a
bucket are unique. -/
def BInv (f : Nat → Nat) (bs : List (Nat × List KRow)) : Prop :=
  (bs.map Prod.fst).Nodup ∧
  (∀ e ∈ bs, ∀ r ∈ e.2, IsRootOf f r.id e.1) ∧
  (∀ e ∈ bs, (e.2.map KRow.id).Nodup)

theorem lookupA_mem {β : Type} :
    ∀ (bs : List (Nat × β)) (k : Nat) (v : β), lookupA bs k = some v → (k, v) ∈ bs := by
  intro bs
  induction bs with
  | nil =>
    intro k v h
    simp [lookupA] at h
  | cons e rest ih =>
    intro k v h
    obtain ⟨k', v'⟩ := e
    unfold lookupA at h
    by_cases hk : k' = k
    · rw [if_pos hk] at h
      injection h with h
      subst hk
      subst h
      exact List.mem_cons_self _ _
    · rw [if_neg hk] at h
      exact List.mem_cons_of_mem _ (ih k v h)

theorem setA_map_fst {β : Type} :
    ∀ (bs : List (Nat × β)) (k : Nat) (v : β),
      (setA bs k v).map Prod.fst
        = if k ∈ bs.map Prod.fst then bs.map Prod.fst else bs.map Prod.fst ++ [k] := by
  intro bs
  induction bs with
  | nil =>
    intro k v
    simp [setA]
  | cons e rest ih =>
    intro k v
    obtain ⟨k', v'⟩ := e
    unfold setA
    by_cases hk : k' = k
    · subst hk
      simp
    · rw [if_neg hk]
      have hmem : (k ∈ (k' :: rest.map Prod.fst)) ↔ (k ∈ rest.map Prod.fst) := by
        constructor
        · intro h
          rcases List.mem_cons.mp h with h' | h'
          · exact absurd h'.symm hk
          · exact h'
        · exact List.mem_cons_of_mem _
      by_cases hmem2 : k ∈ rest.map Prod.fst
      · simp only [List.map_cons]
        rw [if_pos (hmem.mpr hmem2), ih, if_pos hmem2]
      · simp only [List.map_cons]
        rw [if_neg (fun h => hmem2 (hmem.mp h)), ih, if_neg hmem2]
        simp

theorem setA_fst_nodup {β : Type} {bs : List (Nat × β)} (h : (bs.map Prod.fst).Nodup)
    (k : Nat) (v : β) : ((setA bs k v).map Prod.fst).Nodup := by
  rw [setA_map_fst]
  by_cases hk : k ∈ bs.map Prod.fst
  · rwa [if_pos hk]
  · rw [if_neg hk]
    refine List.Nodup.append h (List.nodup_singleton k) ?_
    intro x hx hx'
    rcases List.mem_singleton.mp hx' with rfl
    exact hk hx

theorem mem_setA {β : Type} :
    ∀ (bs : List (Nat × β)) (k : Nat) (v : β) (e : Nat × β),
      e ∈ setA bs k v → e = (k, v) ∨ e ∈ bs := by
  intro bs
  induction bs with
  | nil =>
    intro k v e h
    simp [setA] at h
    exact Or.inl h
  | cons e0 rest ih =>
    intro k v e h
    obtain ⟨k', v'⟩ := e0
    unfold setA at h
    by_cases hk : k' = k
    · rw [if_pos hk] at h
      rcases List.mem_cons.mp h with h' | h'
      · exact Or.inl h'
      · exact Or.inr (List.mem_cons_of_mem _ h')
    · rw [if_neg hk] at h
      rcases List.mem_cons.mp h with h' | h'
      · exact Or.inr (h' ▸ List.mem_cons_self _ _)
      · rcases ih k v e h' with h'' | h''
        · exact Or.inl h''
        · exact Or.inr (List.mem_cons_of_mem _ h'')

theorem guardAppend_root {f : Nat → Nat} {root : Nat} {cur : List KRow} {x : KRow}
    (hcur : ∀ r ∈ cur, IsRootOf f r.id root) (hx : IsRootOf f x.id root) :
    ∀ r ∈ (if cur.any (fun k => decide (k.id = x.id)) then cur else cur ++ [x]),
      IsRootOf f r.id root := by
  by_cases hany : cur.any (fun k => decide (k.id = x.id))
  · rw [if_pos hany]
    exact hcur
  · rw [if_neg hany]
    intro r hr
    rcases List.mem_append.mp hr with h' | h'
    · exact hcur r h'
    · rcases List.mem_singleton.mp h' with rfl
      exact hx

theorem guardAppend_nodup {cur : List KRow} {x : KRow}
    (h : (cur.map KRow.id).Nodup) :
    ((if cur.any (fun k => decide (k.id = x.id)) then cur else cur ++ [x]).map
      KRow.id).Nodup := by
  by_cases hany : cur.any (fun k => decide (k.id = x.id))
  · rwa [if_pos hany]
  · rw [if_neg hany]
    rw [List.map_append]
    refine List.Nodup.append h (by simp) ?_
    intro i hi hi'
    rcases List.mem_singleton.mp hi' with rfl
    rcases List.mem_map.mp hi with ⟨r, hr, hrid⟩
    have : cur.any (fun k => decide (k.id = x.id)) = true := by
      rw [List.any_eq_true]
      exact ⟨r, hr, by simp [hrid]⟩
    exact hany this

theorem addPairRows_BInv {f : Nat → Nat} {bs : List (Nat × List KRow)} (hB : BInv f bs)
    {root : Nat} {a b : KRow} (ha : IsRootOf f a.id root) (hb : IsRootOf f b.id root) :
    BInv f (addPairRows bs root a b) := by
  rcases hB with ⟨h1, h2, h3⟩
  have hcur_root : ∀ r ∈ (lookupA bs root).getD [], IsRootOf f r.id root := by
    cases hl : lookupA bs root with
    | none => simp
    | some v =>
      intro r hr
      simp only [Option.getD_some] at hr
      exact h2 (root, v) (lookupA_mem bs root v hl) r hr
  have hcur_nodup : (((lookupA bs root).getD []).map KRow.id).Nodup := by
    cases hl : lookupA bs root with
    | none => simp
    | some v =>
      simp only [Option.getD_some]
      exact h3 (root, v) (lookupA_mem bs root v hl)
  unfold addPairRows
  refine ⟨setA_fst_nodup h1 _ _, ?_, ?_⟩
  · intro e he r hr
    rcases mem_setA _ _ _ _ he with rfl | he'
    · exact guardAppend_root (guardAppend_root hcur_root ha) hb r hr
    · exact h2 e he' r hr
  · intro e he
    rcases mem_setA _ _ _ _ he with rfl | he'
    · exact guardAppend_nodup (guardAppend_nodup hcur_nodup)
    · exact h3 e he'

theorem runBuckets_spec (fuel k : Nat) :
    ∀ (ps : List SPair) (f : Nat → Nat) (bs : List (Nat × List KRow)),
      Inv f k → k < fuel → BInv f bs →
      (∀ p ∈ ps, SameRoot f p.a.id p.b.id) →
      ∃ f' bs', runBuckets fuel f bs ps = some (f', bs') ∧ BInv f' bs' := by
  intro ps
  induction ps with
  | nil =>
    intro f bs _ _ hB _
    exact ⟨f, bs, rfl, hB⟩
  | cons p rest ih =>
    intro f bs hI hk hB hsame
    rcases find_spec fuel f p.a.id k k hI (hI p.a.id) hk with
      ⟨root, f1, heq, _, hroot, hI1, hiff⟩
    have hB1 : BInv f1 bs := by
      rcases hB with ⟨h1, h2, h3⟩
      exact ⟨h1, fun e he r hrr => (hiff r.id e.1).mp (h2 e he r hrr), h3⟩
    have hroot1 : IsRootOf f1 p.a.id root := (hiff _ _).mp hroot
    have hrootb : IsRootOf f1 p.b.id root := by
      rcases hsame p (List.mem_cons_self _ _) with ⟨σ, hu, hv⟩
      have hu1 : IsRootOf f1 p.a.id σ := (hiff _ _).mp hu
      have hv1 : IsRootOf f1 p.b.id σ := (hiff _ _).mp hv
      rwa [isRootOf_unique hu1 hroot1] at hv1
    have hsame1 : ∀ q ∈ rest, SameRoot f1 q.a.id q.b.id := by
      intro q hq
      rcases hsame q (List.mem_cons_of_mem _ hq) with ⟨σ, hu, hv⟩
      exact ⟨σ, (hiff _ _).mp hu, (hiff _ _).mp hv⟩
    rcases ih f1 (addPairRows bs root p.a p.b) hI1 hk
      (addPairRows_BInv hB1 hroot1 hrootb) hsame1 with ⟨f', bs', heq', hB'⟩
    exact ⟨f', bs', by simp [runBuckets, heq, heq'], hB'⟩

/-! ### Sorting buckets by id -/

/-- Ascending sortedness by id. -/
abbrev PairwiseAsc (l : List KRow) : Prop := l.Pairwise (fun x y => x.id ≤ y.id)

theorem insertById_perm (x : KRow) (l : List KRow) : (insertById x l).Perm (x :: l) := by
  induction l with
  | nil => simp [insertById]
  | cons y rest ih =>
    by_cases h : y.id < x.id
    · simpa [insertById, h] using (ih.cons y).trans (List.Perm.swap x y rest)
    · simp [insertById, h]

theorem sortById_perm (l : List KRow) : (sortById l).Perm l := by
  induction l with
  | nil => simp [sortById]
  | cons x rest ih => exact (insertById_perm x (sortById rest)).trans (ih.cons x)

theorem mem_insertById {z x : KRow} {l : List KRow} :
    z ∈ insertById x l ↔ z = x ∨ z ∈ l := by
  rw [(insertById_perm x l).mem_iff, List.mem_cons]

theorem insertById_sorted {x : KRow} {l : List KRow} (hl : PairwiseAsc l) :
    PairwiseAsc (insertById x l) := by
  induction l with
  | nil => simp [insertById]
  | cons y rest ih =>
    rcases List.pairwise_cons.mp hl with ⟨hy, hrest⟩
    by_cases h : y.id < x.id
    · have hmem : ∀ z ∈ insertById x rest, y.id ≤ z.id := by
        intro z hz
        rcases mem_insertById.mp hz with rfl | hz'
        · exact le_of_lt h
        · exact hy z hz'
      unfold insertById
      rw [if_pos h]
      exact List.pairwise_cons.mpr ⟨hmem, ih hrest⟩
    · have hmem : ∀ z ∈ y :: rest, x.id ≤ z.id := by
        intro z hz
        rcases List.mem_cons.mp hz with rfl | hz'
        · exact le_of_not_lt h
        · exact le_trans (le_of_not_lt h) (hy z hz')
      unfold insertById
      rw [if_neg h]
      exact List.pairwise_cons.mpr ⟨hmem, hl⟩

theorem sortById_sorted (l : List KRow) : PairwiseAsc (sortById l) := by
  induction l with
  | nil => simp [sortById]
  | cons x rest ih => exact insertById_sorted ih

theorem sorted_head_le {g : List KRow} (hs : PairwiseAsc g) :
    ∀ hne : g ≠ [], ∀ r ∈ g, (g.head hne).id ≤ r.id := by
  cases g with
  | nil =>
    intro hne
    exact absurd rfl hne
  | cons h t =>
    intro _ r hr
    rcases List.mem_cons.mp hr with rfl | hr'
    · exact le_refl _
    · exact (List.pairwise_cons.mp hs).1 r hr'

/-! ### The clustering invariants (C6) and totality (C10) -/

/-- The per-cluster invariants claimed of `groupPairs` output: at least
two members, members sorted ascending by id with no duplicate ids, and
the first member (the designated primary) of minimum id. -/
def clusterOk (g : List KRow) : Prop :=
  2 ≤ g.length ∧ g.Pairwise (fun x y => x.id ≤ y.id) ∧ (g.map KRow.id).Nodup ∧
  ∀ hne : g ≠ [], ∀ r ∈ g, (g.head hne).id ≤ r.id

/-- All clusters of one run: pairwise disjoint as id sets, and each
cluster well-formed. -/
def clustersOk (gs : List (List KRow)) : Prop :=
  gs.Pairwise (fun g1 g2 => ∀ r1 ∈ g1, ∀ r2 ∈ g2, r1.id ≠ r2.id) ∧
  ∀ g ∈ gs, clusterOk g

/-- The union-find runs of `groupPairs` always succeed with their fuel,
and leave a bucket list satisfying `BInv`. -/
theorem groupPairs_runs (pairs : List SPair) :
    ∃ f f' bs, runUnions (pairs.length + 1) (fun x => x) pairs = some f ∧
      runBuckets (pairs.length + 1) f [] pairs = some (f', bs) ∧ BInv f' bs := by
  have hid : Inv (fun x => x) 0 := fun x => rfl
  rcases runUnions_spec (pairs.length + 1) pairs (fun x => x) 0 hid (by omega) with
    ⟨f, hequ, hIf, _, hall⟩
  have hIf' : Inv f pairs.length := by simpa using hIf
  have hBnil : BInv f [] := ⟨List.nodup_nil, by simp, by simp⟩
  rcases runBuckets_spec (pairs.length + 1) pairs.length pairs f [] hIf' (by omega)
    hBnil hall with ⟨f', bs', heqb, hB'⟩
  exact ⟨f, f', bs', hequ, heqb, hB'⟩

/-- `groupPairs` is total at its own fuel. -/
theorem groupPairs_total (maxGroupSize : Nat) (pairs : List SPair) :
    ∃ gs, groupPairs maxGroupSize pairs = some gs := by
  rcases groupPairs_runs pairs with ⟨f, f', bs, hequ, heqb, _⟩
  simp only [groupPairs, hequ, heqb]
  exact ⟨_, rfl⟩

/-- C10: the recursive `find` with path compression terminates for every
parent map reachable from the union operations over any pair list —
with fuel `pairs.length + 1` no call ever exhausts its fuel — so
`groupPairs` is a total function of its input pair list. -/
theorem groupPairs_terminates (maxGroupSize : Nat) (pairs : List SPair) :
    (groupPairs maxGroupSize pairs).isSome = true := by
  rcases groupPairs_total maxGroupSize pairs with ⟨gs, h⟩
  rw [h]
  rfl

/-- C6: every cluster list emitted by `groupPairs` has pairwise disjoint
clusters (as sets of entity ids), every cluster has at least two members
with distinct ids, members are sorted ascending by id, and the first
member — the designated primary — has the minimum id of its cluster. -/
theorem groupPairs_clusters (maxGroupSize : Nat) (pairs : List SPair)
    (gs : List (List KRow)) (h : groupPairs maxGroupSize pairs = some gs) :
    clustersOk gs := by
  rcases groupPairs_runs pairs with ⟨f, f', bs, hequ, heqb, hB⟩
  simp only [groupPairs, hequ, heqb, Option.some.injEq] at h
  have hkeyPW : bs.Pairwise (fun e1 e2 => e1.1 ≠ e2.1) :=
    List.pairwise_map.mp hB.1
  have hdisj : bs.Pairwise (fun e1 e2 =>
      ∀ r1 ∈ sortById e1.2, ∀ r2 ∈ sortById e2.2, r1.id ≠ r2.id) := by
    refine hkeyPW.imp_of_mem ?_
    intro e1 e2 h1mem h2mem hne r1 hr1 r2 hr2 heq
    have hr1' : r1 ∈ e1.2 := (sortById_perm e1.2).mem_iff.mp hr1
    have hr2' : r2 ∈ e2.2 := (sortById_perm e2.2).mem_iff.mp hr2
    have hR1 : IsRootOf f' r1.id e1.1 := hB.2.1 e1 h1mem r1 hr1'
    have hR2 : IsRootOf f' r2.id e2.1 := hB.2.1 e2 h2mem r2 hr2'
    rw [heq] at hR1
    exact hne (isRootOf_unique hR1 hR2)
  have hmapPW : (bs.map (fun e => sortById e.2)).Pairwise
      (fun g1 g2 => ∀ r1 ∈ g1, ∀ r2 ∈ g2, r1.id ≠ r2.id) :=
    List.pairwise_map.mpr hdisj
  have hok : ∀ g ∈ bs.map (fun e => sortById e.2), 2 ≤ g.length → clusterOk g := by
    intro g hg hlen
    rcases List.mem_map.mp hg with ⟨e, he, rfl⟩
    refine ⟨hlen, sortById_sorted e.2, ?_, sorted_head_le (sortById_sorted e.2)⟩
    have hperm : ((sortById e.2).map KRow.id).Perm (e.2.map KRow.id) :=
      (sortById_perm e.2).map KRow.id
    exact hperm.nodup_iff.mpr (hB.2.2 e he)
  subst h
  by_cases hm : 0 < maxGroupSize
  · rw [if_pos hm]
    constructor
    · exact hmapPW.sublist (List.filter_sublist _)
    · intro g hg
      rcases List.mem_filter.mp hg with ⟨hg', hpred⟩
      simp only [Bool.and_eq_true, decide_eq_true_eq] at hpred
      exact hok g hg' hpred.1
  · rw [if_neg hm]
    constructor
    · exact hmapPW.sublist (List.filter_sublist _)
    · intro g hg
      rcases List.mem_filter.mp hg with ⟨hg', hpred⟩
      simp only [decide_eq_true_eq] at hpred
      exact hok g hg' hpred

/-- Witness for C6 at a concrete input: a single pair produces the
single cluster `[row 1, row 2]`, which satisfies all invariants. -/
theorem groupPairs_clusters_witness :
    clustersOk [[wRow 1, wRow 2]] :=
  groupPairs_clusters 0 [⟨wRow 1, wRow 2, 9/10⟩] [[wRow 1, wRow 2]] (by decide)

/-! ### The merge decision engine (`applyMerge`)

The LLM decision call is the oracle `dO`; a failed or malformed response
is `Except.error` (the only error the source catches). Every store
mutation is submitted to the success oracle `sO`; `false` models a
returned
store error, which the source turns into a thrown `Error` that is NOT
caught inside `applyMerge`. -/

/-- The two behavior flags of `DEDUPE_CONFIG` that `applyMerge` reads. -/
structure DedupeConfig where
  deleteSecondaries : Bool
  aggressiveDelete : Bool
  deriving DecidableEq, Repr

/-- JavaScript `String.prototype.trim`: strip whitespace from both
ends. Embedded structurally over the character list (rather than via
`String.trim`, whose well-founded recursion does not reduce), so that
concrete witnesses evaluate by `rfl`/`decide`. -/
def jsTrim (s : String) : String :=
  String.mk ((s.data.dropWhile Char.isWhitespace).reverse.dropWhile
    Char.isWhitespace).reverse

/-- JavaScript `o?.trim() || fallback` for an optional string. -/
def jsStrOr (o : Option String) (fallback : String) : String :=
  match o with
  | some s => if jsTrim s = "" then fallback else jsTrim s
  | none => fallback

/-- The fallback merged description of the merge branch:
`[primaryDescription, secondary.description].filter(v => v && v.trim()).join("\n").trim() || null`. -/
def joinedDesc (pd sd : Option String) : Option String :=
  let parts := ([pd, sd].filterMap id).filter
    (fun v => decide (v ≠ "") && decide (jsTrim v ≠ ""))
  let joined := jsTrim (String.intercalate "\n" parts)
  if joined = "" then none else some joined

/-- The merged description:
`decision.description?.trim() || joinedDesc || null`. -/
def mergedDescription (d pd sd : Option String) : Option String :=
  match d with
  | some s => if jsTrim s = "" then joinedDesc pd sd else some (jsTrim s)
  | none => joinedDesc pd sd

/-- The rename branch's new description:
`decision.description?.trim() || secondary.description || null`. -/
def renameDescription (d sd : Option String) : Option String :=
  let t := match d with
    | some s => jsTrim s
    | none => ""
  if t = "" then
    match sd with
    | some s => if s = "" then none else some s
    | none => none
  else some t

/-- `buildEmbedTextForKeyword` of dedupeKeywords.ts. -/
def buildEmbedTextForKeyword (keyword : String) (description : Option String) : String :=
  let parts := (([some keyword, description].filterMap id).filter
    (fun v => decide (v ≠ ""))).map jsTrim
  let combined := String.intercalate "\n\n" (parts.filter (fun v => decide (v ≠ "")))
  if combined = "" then keyword else combined

/-- `updateKeyword` of dedupeKeywords.ts, as the store operation it
issues: the row's keyword and description are replaced and both
embeddings are regenerated from the new values via the embedding
oracle. -/
def updateKeyword (eO : String → List ℚ) (row : KRow) (keyword : String)
    (description : Option String) : StoreOp :=
  StoreOp.updateKeywordOp row.id keyword description
    (eO (buildEmbedTextForKeyword keyword description)) (eO keyword)

/-- The refreshed in-memory primary row of the merge branch
(`primary = { ...primary, keyword: mergedKeyword, description: mergedDesc }`). -/
def mergedRow (p : KRow) (mk : String) (md : Option String) : KRow :=
  { p with keyword := mk, description := md }

/-- The loop state of `applyMerge`: the in-memory primary snapshot
(`primary`, `primaryKeyword`, `primaryDescription`) plus the recorded
trace of decision calls (with the primary snapshot passed to each) and
issued store mutations. -/
structure MergeState where
  primary : KRow
  primaryKeyword : String
  primaryDescription : Option String
  decisions : List (KRow × KRow)
  ops : List StoreOp
  deriving DecidableEq, Repr

/-- The result trace of one cluster. -/
structure MergeTrace where
  decisions : List (KRow × KRow)
  ops : List StoreOp
  deriving DecidableEq, Repr

/-- The decision-call trace of an `applyMerge` result. -/
def decisionsOf (r : Except String MergeTrace) : List (KRow × KRow) :=
  match r with
  | .ok t => t.decisions
  | .error _ => []

/-- The body of `applyMerge`'s per-secondary loop. A decision failure is
caught (`continue`); a rejected store mutation propagates as an error,
exactly as the uncaught `throw` of `updateKeyword` / the delete branch. -/
def processSecondary (cfg : DedupeConfig) (eO : String → List ℚ)
    (dO : KRow → KRow → Except String LlmDecision) (sO : StoreOp → Bool)
    (st : MergeState) (secondary : KRow) : Except String MergeState :=
  let st1 : MergeState :=
    { st with decisions := st.decisions ++ [(st.primary, secondary)] }
  match dO st.primary secondary with
  | .error _ => .ok st1
  | .ok .skip => .ok st1
  | .ok (.rename kw dsc) =>
    let newKeyword := jsTrim kw
    let current := jsTrim secondary.keyword
    if newKeyword = "" then .ok st1
    else if newKeyword = current ∨ newKeyword = st.primaryKeyword then .ok st1
    else
      let op := updateKeyword eO secondary newKeyword
        (renameDescription dsc secondary.description)
      if sO op then .ok { st1 with ops := st1.ops ++ [op] }
      else .error "failed to update keyword"
  | .ok (.merge kO dsc) =>
    let mergedKeyword := jsStrOr kO st.primaryKeyword
    let mergedDesc := mergedDescription dsc st.primaryDescription secondary.description
    let op := updateKeyword eO st.primary mergedKeyword mergedDesc
    if sO op then
      let st2 : MergeState :=
        { primary := mergedRow st.primary mergedKeyword mergedDesc,
          primaryKeyword := mergedKeyword,
          primaryDescription := mergedDesc,
          decisions := st1.decisions,
          ops := st1.ops ++ [op] }
      if cfg.deleteSecondaries then
        if sO (StoreOp.deleteOne secondary.id) then
          .ok { st2 with ops := st2.ops ++ [StoreOp.deleteOne secondary.id] }
        else .error "failed to delete duplicate"
      else .ok st2
    else .error "failed to update keyword"

/-- The sequential per-secondary loop of `applyMerge`. -/
def runSecondaries (cfg : DedupeConfig) (eO : String → List ℚ)
    (dO : KRow → KRow → Except String LlmDecision) (sO : StoreOp → Bool) :
    MergeState → List KRow → Except String MergeState
  | st, [] => .ok st
  | st, s :: rest =>
    match processSecondary cfg eO dO sO st s with
    | .error e => .error e
    | .ok st' => runSecondaries cfg eO dO sO st' rest

/-- `applyMerge` of dedupeKeywords.ts. The aggressive branch deletes all
secondaries in one bulk operation without any decision call; otherwise
the secondaries are processed sequentially against the evolving primary
snapshot. -/
def applyMerge (cfg : DedupeConfig) (eO : String → List ℚ)
    (dO : KRow → KRow → Except String LlmDecision) (sO : StoreOp → Bool) :
    List KRow → Except String MergeTrace
  | [] => .ok ⟨[], []⟩
  | primary :: rest =>
    if cfg.aggressiveDelete && cfg.deleteSecondaries then
      match rest with
      | [] => .ok ⟨[], []⟩
      | _ :: _ =>
        if sO (StoreOp.deleteIds (rest.map KRow.id)) then
          .ok ⟨[], [StoreOp.deleteIds (rest.map KRow.id)]⟩
        else .error "failed aggressive delete"
    else
      match runSecondaries cfg eO dO sO
        ⟨primary, primary.keyword, primary.description, [], []⟩ rest with
      | .error e => .error e
      | .ok st => .ok ⟨st.decisions, st.ops⟩

/-! ### Merge-engine lemmas -/

theorem runSecondaries_cons (cfg : DedupeConfig) (eO : String → List ℚ)
    (dO : KRow → KRow → Except String LlmDecision) (sO : StoreOp → Bool)
    (st : MergeState) (s : KRow) (rest : List KRow) (st' : MergeState)
    (h : processSecondary cfg eO dO sO st s = .ok st') :
    runSecondaries cfg eO dO sO st (s :: rest) = runSecondaries cfg eO dO sO st' rest := by
  simp only [runSecondaries, h]

/-- One merge step, evaluated: the primary row is updated to the merged
keyword and description with both embeddings regenerated, the secondary
is deleted when configured, and the snapshot advances to the merged
values. -/
theorem processSecondary_merge_eq (cfg : DedupeConfig) (eO : String → List ℚ)
    (dO : KRow → KRow → Except String LlmDecision) (sO : StoreOp → Bool)
    (st : MergeState) (s : KRow) (kO dsc : Option String)
    (hd : dO st.primary s = .ok (.merge kO dsc))
    (h1 : sO (updateKeyword eO st.primary (jsStrOr kO st.primaryKeyword)
      (mergedDescription dsc st.primaryDescription s.description)) = true)
    (h2 : sO (StoreOp.deleteOne s.id) = true) :
    processSecondary cfg eO dO sO st s = .ok
      ⟨mergedRow st.primary (jsStrOr kO st.primaryKeyword)
          (mergedDescription dsc st.primaryDescription s.description),
        jsStrOr kO st.primaryKeyword,
        mergedDescription dsc st.primaryDescription s.description,
        st.decisions ++ [(st.primary, s)],
        st.ops ++ [updateKeyword eO st.primary (jsStrOr kO st.primaryKeyword)
            (mergedDescription dsc st.primaryDescription s.description)]
          ++ (if cfg.deleteSecondaries then [StoreOp.deleteOne s.id] else [])⟩ := by
  unfold processSecondary
  rw [hd]
  cases hdel : cfg.deleteSecondaries <;> simp [h1, h2, hdel]

/-- Any step whose store oracle always succeeds returns `ok` and records
exactly one decision call, made with the current primary snapshot. -/
theorem processSecondary_decisions (cfg : DedupeConfig) (eO : String → List ℚ)
    (dO : KRow → KRow → Except String LlmDecision) (st : MergeState) (s : KRow) :
    ∃ st', processSecondary cfg eO dO (fun _ => true) st s = .ok st' ∧
      st'.decisions = st.decisions ++ [(st.primary, s)] := by
  cases hd : dO st.primary s with
  | error e =>
    refine ⟨{ st with decisions := st.decisions ++ [(st.primary, s)] }, ?_, rfl⟩
    simp [processSecondary, hd]
  | ok d =>
    cases d with
    | skip =>
      refine ⟨{ st with decisions := st.decisions ++ [(st.primary, s)] }, ?_, rfl⟩
      simp [processSecondary, hd]
    | merge kO dsc =>
      exact ⟨_, processSecondary_merge_eq cfg eO dO (fun _ => true) st s kO dsc hd rfl rfl,
        rfl⟩
    | rename kw dsc =>
      by_cases hk1 : jsTrim kw = ""
      · refine ⟨{ st with decisions := st.decisions ++ [(st.primary, s)] }, ?_, rfl⟩
        simp [processSecondary, hd, hk1]
      · by_cases hk2 : jsTrim kw = jsTrim s.keyword ∨ jsTrim kw = st.primaryKeyword
        · refine ⟨{ st with decisions := st.decisions ++ [(st.primary, s)] }, ?_, rfl⟩
          simp [processSecondary, hd, hk1, hk2]
        · refine ⟨⟨st.primary, st.primaryKeyword, st.primaryDescription,
            st.decisions ++ [(st.primary, s)],
            st.ops ++ [updateKeyword eO s (jsTrim kw)
              (renameDescription dsc s.description)]⟩, ?_, rfl⟩
          simp [processSecondary, hd, hk1, hk2]

/-- `runSecondaries` with an always-failing decision oracle: every
secondary is consulted, every failure is caught, nothing is mutated. -/
theorem runSecondaries_decision_failures (cfg : DedupeConfig) (eO : String → List ℚ)
    (sO : StoreOp → Bool) (msg : String) :
    ∀ (rest : List KRow) (st : MergeState),
      runSecondaries cfg eO (fun _ _ => .error msg) sO st rest
        = .ok { st with decisions := st.decisions ++ rest.map (fun s => (st.primary, s)) } := by
  intro rest
  induction rest with
  | nil =>
    intro st
    simp [runSecondaries]
  | cons s rest' ih =>
    intro st
    have hstep : processSecondary cfg eO (fun _ _ => .error msg) sO st s
        = .ok { st with decisions := st.decisions ++ [(st.primary, s)] } := by
      simp [processSecondary]
    rw [runSecondaries_cons cfg eO _ sO st s rest' _ hstep, ih]
    simp

/-- C1 (amended): inside one cluster, an LLM decision failure for a
secondary is caught and that secondary is skipped, with all remaining
secondaries still processed (first conjunct: with every decision call
failing, the cluster completes with zero mutations and one logged
decision attempt per secondary); but a store-mutation failure is NOT
caught: a rejected primary update propagates as an error that aborts the
whole cluster (second conjunct), and hence fails the run. -/
theorem decision_failures_skipped_store_failures_abort :
    (∀ (cfg : DedupeConfig) (eO : String → List ℚ) (sO : StoreOp → Bool) (msg : String)
        (p : KRow) (rest : List KRow), cfg.aggressiveDelete = false →
      applyMerge cfg eO (fun _ _ => .error msg) sO (p :: rest)
        = .ok ⟨rest.map (fun s => (p, s)), []⟩) ∧
    (∀ (cfg : DedupeConfig) (eO : String → List ℚ)
        (dO : KRow → KRow → Except String LlmDecision) (sO : StoreOp → Bool)
        (p s : KRow) (rest : List KRow) (kO dsc : Option String),
      cfg.aggressiveDelete = false →
      dO p s = .ok (.merge kO dsc) →
      sO (updateKeyword eO p (jsStrOr kO p.keyword)
        (mergedDescription dsc p.description s.description)) = false →
      applyMerge cfg eO dO sO (p :: s :: rest) = .error "failed to update keyword") := by
  constructor
  · intro cfg eO sO msg p rest hAg
    have h := runSecondaries_decision_failures cfg eO sO msg rest
      ⟨p, p.keyword, p.description, [], []⟩
    simp only [applyMerge]
    rw [if_neg (by simp [hAg] : ¬ ((cfg.aggressiveDelete && cfg.deleteSecondaries) = true))]
    rw [h]
    rfl
  · intro cfg eO dO sO p s rest kO dsc hAg hd hfail
    have hstep : processSecondary cfg eO dO sO ⟨p, p.keyword, p.description, [], []⟩ s
        = .error "failed to update keyword" := by
      simp [processSecondary, hd, hfail]
    have hrun : runSecondaries cfg eO dO sO
        ⟨p, p.keyword, p.description, [], []⟩ (s :: rest)
        = .error "failed to update keyword" := by
      unfold runSecondaries
      rw [hstep]
    simp only [applyMerge]
    rw [if_neg (by simp [hAg] : ¬ ((cfg.aggressiveDelete && cfg.deleteSecondaries) = true))]
    rw [hrun]

/-- Concrete embedding oracle used by counterexamples and witnesses. -/
def cexEmbed : String → List ℚ := fun _ => [1]

/-- Decision oracle that always proposes merging into keyword "X". -/
def cexDecideMerge : KRow → KRow → Except String LlmDecision :=
  fun _ _ => .ok (.merge (some "X") none)

/-- Store oracle on which every mutation fails. -/
def cexStoreFail : StoreOp → Bool := fun _ => false

/-- Counterexample for C1 as stated: in apply mode with the LLM decision
engine (aggressive off, delete on), the very first store-mutation
failure (the primary update) aborts the whole cluster — the result is an
error, and the remaining secondary (row 3) is never processed — instead
of being caught and skipped. -/
theorem store_failure_aborts_cluster_cex :
    applyMerge ⟨true, false⟩ cexEmbed cexDecideMerge cexStoreFail
      [wRow 1, wRow 2, wRow 3] = .error "failed to update keyword" := rfl

/-- Witness for (amended) C1 at concrete inputs. -/
theorem decision_failures_skipped_store_failures_abort_witness :
    applyMerge ⟨true, false⟩ cexEmbed (fun _ _ => .error "boom") (fun _ => true)
        [wRow 1, wRow 2] = .ok ⟨[(wRow 1, wRow 2)], []⟩ ∧
    applyMerge ⟨true, false⟩ cexEmbed cexDecideMerge cexStoreFail
        [wRow 1, wRow 2] = .error "failed to update keyword" := by
  constructor
  · have h := decision_failures_skipped_store_failures_abort.1 ⟨true, false⟩ cexEmbed
      (fun _ => true) "boom" (wRow 1) [wRow 2] rfl
    simpa using h
  · exact decision_failures_skipped_store_failures_abort.2 ⟨true, false⟩ cexEmbed
      cexDecideMerge cexStoreFail (wRow 1) (wRow 2) [] (some "X") none rfl rfl rfl

/-- C5: within one cluster `[p, s1, s2]` processed sequentially with all
mutations succeeding, if the decision for `s1` is a merge, the second
decision call receives the updated primary snapshot — merged keyword and
merged description — not the primary's original values. -/
theorem decision_chaining (cfg : DedupeConfig) (eO : String → List ℚ)
    (dO : KRow → KRow → Except String LlmDecision) (p s1 s2 : KRow)
    (kO dsc : Option String)
    (hAg : cfg.aggressiveDelete = false)
    (hd : dO p s1 = .ok (.merge kO dsc)) :
    decisionsOf (applyMerge cfg eO dO (fun _ => true) [p, s1, s2])
      = [(p, s1),
         (mergedRow p (jsStrOr kO p.keyword)
           (mergedDescription dsc p.description s1.description), s2)] := by
  have hstep1 : processSecondary cfg eO dO (fun _ => true)
      ⟨p, p.keyword, p.description, [], []⟩ s1 = .ok
      ⟨mergedRow p (jsStrOr kO p.keyword)
          (mergedDescription dsc p.description s1.description),
        jsStrOr kO p.keyword,
        mergedDescription dsc p.description s1.description,
        [(p, s1)],
        [updateKeyword eO p (jsStrOr kO p.keyword)
            (mergedDescription dsc p.description s1.description)]
          ++ (if cfg.deleteSecondaries then [StoreOp.deleteOne s1.id] else [])⟩ := by
    simpa using processSecondary_merge_eq cfg eO dO (fun _ => true)
      ⟨p, p.keyword, p.description, [], []⟩ s1 kO dsc hd rfl rfl
  rcases processSecondary_decisions cfg eO dO
      ⟨mergedRow p (jsStrOr kO p.keyword)
          (mergedDescription dsc p.description s1.description),
        jsStrOr kO p.keyword,
        mergedDescription dsc p.description s1.description,
        [(p, s1)],
        [updateKeyword eO p (jsStrOr kO p.keyword)
            (mergedDescription dsc p.description s1.description)]
          ++ (if cfg.deleteSecondaries then [StoreOp.deleteOne s1.id] else [])⟩ s2
    with ⟨st2, heq2, hdec2⟩
  simp only [applyMerge]
  rw [if_neg (by simp [hAg] : ¬ ((cfg.aggressiveDelete && cfg.deleteSecondaries) = true))]
  rw [runSecondaries_cons cfg eO dO (fun _ => true) _ s1 [s2] _ hstep1]
  rw [runSecondaries_cons cfg eO dO (fun _ => true) _ s2 [] _ heq2]
  have hnil : runSecondaries cfg eO dO (fun _ => true) st2 [] = .ok st2 := rfl
  rw [hnil]
  simp [decisionsOf, hdec2]

/-- Decision oracle for the C5 witness: merge into "X" against row 2,
skip otherwise. -/
def cexDecideX : KRow → KRow → Except String LlmDecision :=
  fun _ s => if s.id = 2 then .ok (.merge (some "X") none) else .ok .skip

/-- Witness for C5 at a concrete input: deciding (1,2) returns merge
with keyword "X", and the decision call for secondary 3 receives "X" as
the primary-side name. -/
theorem decision_chaining_witness :
    decisionsOf (applyMerge ⟨false, false⟩ cexEmbed cexDecideX (fun _ => true)
        [wRow 1, wRow 2, wRow 3])
      = [(wRow 1, wRow 2),
         (mergedRow (wRow 1) (jsStrOr (some "X") (wRow 1).keyword)
           (mergedDescription none (wRow 1).description (wRow 2).description),
          wRow 3)] :=
  decision_chaining ⟨false, false⟩ cexEmbed cexDecideX (wRow 1) (wRow 2) (wRow 3)
    (some "X") none rfl rfl

/-- C7: when a merge decision is applied, the merged keyword is the
decision's proposed name when non-blank, else the primary's current
snapshot name; the merged description is the decision's proposed
description when non-blank, else the newline concatenation of the
non-blank primary and secondary descriptions, else null; and the primary
row is updated with these values with both embeddings regenerated (and
the secondary deleted exactly when configured). -/
theorem merge_updates_primary (cfg : DedupeConfig) (eO : String → List ℚ)
    (dO : KRow → KRow → Except String LlmDecision) (sO : StoreOp → Bool)
    (st : MergeState) (s : KRow) (kO dsc : Option String)
    (hd : dO st.primary s = .ok (.merge kO dsc))
    (h1 : sO (updateKeyword eO st.primary (jsStrOr kO st.primaryKeyword)
      (mergedDescription dsc st.primaryDescription s.description)) = true)
    (h2 : sO (StoreOp.deleteOne s.id) = true) :
    processSecondary cfg eO dO sO st s = .ok
      ⟨mergedRow st.primary (jsStrOr kO st.primaryKeyword)
          (mergedDescription dsc st.primaryDescription s.description),
        jsStrOr kO st.primaryKeyword,
        mergedDescription dsc st.primaryDescription s.description,
        st.decisions ++ [(st.primary, s)],
        st.ops ++ [updateKeyword eO st.primary (jsStrOr kO st.primaryKeyword)
            (mergedDescription dsc st.primaryDescription s.description)]
          ++ (if cfg.deleteSecondaries then [StoreOp.deleteOne s.id] else [])⟩ :=
  processSecondary_merge_eq cfg eO dO sO st s kO dsc hd h1 h2

/-- Rows with descriptions, for the C7/C8 witnesses. -/
def wRowD (n : Nat) (kw : String) (d : Option String) : KRow := ⟨n, kw, d, none, none⟩

/-- State at the start of a cluster whose primary is
`wRowD 1 "Trump" (some "p-desc")`. -/
def wStart : MergeState :=
  ⟨wRowD 1 "Trump" (some "p-desc"), "Trump", some "p-desc", [], []⟩

/-- Witness for C7 at a concrete input (proposed name and description
both absent, so the name is kept and the descriptions concatenate). -/
theorem merge_updates_primary_witness :
    processSecondary ⟨true, false⟩ cexEmbed (fun _ _ => .ok (.merge none none))
        (fun _ => true) wStart (wRowD 2 "Donald Trump" (some "s-desc")) = .ok
      ⟨mergedRow wStart.primary (jsStrOr none wStart.primaryKeyword)
          (mergedDescription none wStart.primaryDescription
            (wRowD 2 "Donald Trump" (some "s-desc")).description),
        jsStrOr none wStart.primaryKeyword,
        mergedDescription none wStart.primaryDescription
          (wRowD 2 "Donald Trump" (some "s-desc")).description,
        wStart.decisions ++ [(wStart.primary, wRowD 2 "Donald Trump" (some "s-desc"))],
        wStart.ops ++ [updateKeyword cexEmbed wStart.primary
            (jsStrOr none wStart.primaryKeyword)
            (mergedDescription none wStart.primaryDescription
              (wRowD 2 "Donald Trump" (some "s-desc")).description)]
          ++ (if (⟨true, false⟩ : DedupeConfig).deleteSecondaries
              then [StoreOp.deleteOne (wRowD 2 "Donald Trump" (some "s-desc")).id]
              else [])⟩ :=
  merge_updates_primary ⟨true, false⟩ cexEmbed (fun _ _ => .ok (.merge none none))
    (fun _ => true) wStart (wRowD 2 "Donald Trump" (some "s-desc")) none none rfl rfl rfl

/-- C8: a rename decision whose effective (trimmed) proposed name is
empty, or equals the secondary's current (trimmed) name, or equals the
primary's snapshot name, performs zero store mutations for that
secondary: the step returns `ok` with the state unchanged except for the
logged decision call, so processing continues with the next secondary. -/
theorem rename_noop_guard (cfg : DedupeConfig) (eO : String → List ℚ)
    (dO : KRow → KRow → Except String LlmDecision) (sO : StoreOp → Bool)
    (st : MergeState) (s : KRow) (kw : String) (dsc : Option String)
    (hd : dO st.primary s = .ok (.rename kw dsc))
    (hno : jsTrim kw = "" ∨ jsTrim kw = jsTrim s.keyword ∨ jsTrim kw = st.primaryKeyword) :
    processSecondary cfg eO dO sO st s
      = .ok { st with decisions := st.decisions ++ [(st.primary, s)] } := by
  by_cases hk1 : jsTrim kw = ""
  · simp [processSecondary, hd, hk1]
  · have hk2 : jsTrim kw = jsTrim s.keyword ∨ jsTrim kw = st.primaryKeyword := by
      rcases hno with h | h
      · exact absurd h hk1
      · exact h
    simp [processSecondary, hd, hk1, hk2]

/-- Witness for C8 at a concrete input: a rename proposing exactly the
primary's current name is a no-op. -/
theorem rename_noop_guard_witness :
    processSecondary ⟨true, false⟩ cexEmbed (fun _ _ => .ok (.rename "Trump" none))
        (fun _ => true) wStart (wRowD 2 "Donald Trump" (some "s-desc"))
      = .ok { wStart with decisions := wStart.decisions
          ++ [(wStart.primary, wRowD 2 "Donald Trump" (some "s-desc"))] } :=
  rename_noop_guard ⟨true, false⟩ cexEmbed (fun _ _ => .ok (.rename "Trump" none))
    (fun _ => true) wStart (wRowD 2 "Donald Trump" (some "s-desc")) "Trump" none rfl
    (Or.inr (Or.inr (by decide)))

/-- C9: with aggressive mode active (aggressive flag and delete flag
both set), processing a cluster issues exactly one bulk delete of all
secondaries, makes zero decision calls, and touches no other row — in
particular the primary row is left entirely unchanged. -/
theorem aggressive_mode_bulk_delete (cfg : DedupeConfig) (eO : String → List ℚ)
    (dO : KRow → KRow → Except String LlmDecision) (sO : StoreOp → Bool)
    (p : KRow) (rest : List KRow)
    (ha : cfg.aggressiveDelete = true) (hdel : cfg.deleteSecondaries = true)
    (hne : rest ≠ [])
    (hs : sO (StoreOp.deleteIds (rest.map KRow.id)) = true)
    (hp : p.id ∉ rest.map KRow.id) :
    applyMerge cfg eO dO sO (p :: rest)
      = .ok ⟨[], [StoreOp.deleteIds (rest.map KRow.id)]⟩ ∧
    ∀ op ∈ [StoreOp.deleteIds (rest.map KRow.id)], op.touches p.id = false := by
  constructor
  · simp only [applyMerge]
    rw [if_pos (by simp [ha, hdel] : (cfg.aggressiveDelete && cfg.deleteSecondaries) = true)]
    cases rest with
    | nil => exact absurd rfl hne
    | cons s rest' =>
      simp only [List.map_cons] at hs
      simp [hs]
  · intro op hop
    rcases List.mem_singleton.mp hop with rfl
    simp only [StoreOp.touches]
    rw [List.any_eq_false]
    intro j hj
    simp only [decide_eq_true_eq]
    intro h
    exact hp (h ▸ hj)

/-- Witness for C9 at the concrete cluster `{1, 2}`: entity 2 is
deleted, entity 1 untouched, zero decision calls. -/
theorem aggressive_mode_bulk_delete_witness :
    applyMerge ⟨true, true⟩ cexEmbed cexDecideMerge (fun _ => true) [wRow 1, wRow 2]
      = .ok ⟨[], [StoreOp.deleteIds [(wRow 2).id]]⟩ ∧
    (StoreOp.deleteIds [(wRow 2).id]).touches (wRow 1).id = false := by
  have h := aggressive_mode_bulk_delete ⟨true, true⟩ cexEmbed cexDecideMerge
    (fun _ => true) (wRow 1) [wRow 2] rfl rfl (by simp) rfl (by decide)
  exact ⟨by simpa using h.1, by simpa using h.2 _ (by simp)⟩

/-! ### Orchestrator (`main`) -/

/-- Whether a stored embedding is missing
(`!embedding || embedding.length === 0`). -/
def isMissing (v : Option (List ℚ)) : Bool :=
  match v with
  | none => true
  | some l => l.isEmpty

/-- The text-embedding step of `ensureEmbeddings`: when text embeddings
are enabled and the stored one is missing, embed the keyword+description
text (failing when blank); the boolean records whether a new vector was
computed (and so belongs in the persisted payload). -/
def ensureTextStep (shouldEmbedText : Bool) (eO : String → List ℚ) (row : KRow) :
    Except String (Option (List ℚ) × Bool) :=
  if shouldEmbedText && isMissing row.embedding then
    let text := buildEmbedTextForKeyword row.keyword row.description
    if jsTrim text = "" then .error "no text to embed"
    else .ok (some (eO text), true)
  else .ok (row.embedding, false)

/-- The name-embedding step of `ensureEmbeddings`: when the stored name
embedding is missing, embed the trimmed keyword (failing when blank). -/
def ensureNameStep (eO : String → List ℚ) (row : KRow) :
    Except String (Option (List ℚ) × Bool) :=
  if isMissing row.name_embedding then
    let nameText := jsTrim row.keyword
    if nameText = "" then .error "empty keyword to embed"
    else .ok (some (eO nameText), true)
  else .ok (row.name_embedding, false)

/-- `ensureEmbeddings` of dedupeKeywords.ts: compute any missing
embeddings, persist the freshly computed vectors in one `update` whose
payload holds exactly the new columns (failing when the store rejects
it), and fail if the final name embedding is still empty. Returns the
embeddings and the issued store ops. -/
def ensureEmbeddings (shouldEmbedText : Bool) (eO : String → List ℚ) (sO : StoreOp → Bool)
    (row : KRow) : Except String (Option (List ℚ) × List ℚ × List StoreOp) :=
  match ensureTextStep shouldEmbedText eO row with
  | .error e => .error e
  | .ok (tE, tNew) =>
    match ensureNameStep eO row with
    | .error e => .error e
    | .ok (nE, nNew) =>
      let payloadOp := StoreOp.updateEmbeds row.id (if tNew then tE else none)
        (if nNew then nE else none)
      if tNew || nNew then
        if sO payloadOp then
          match nE with
          | none => .error "missing name embedding"
          | some l =>
            if l.isEmpty then .error "missing name embedding"
            else .ok (tE, l, [payloadOp])
        else .error "failed to save embeddings"
      else
        match nE with
        | none => .error "missing name embedding"
        | some l =>
          if l.isEmpty then .error "missing name embedding"
          else .ok (tE, l, [])

/-- The embedding phase over all rows (the bounded embed worker pool,
flattened to its sequential schedule), collecting the persisted ops. -/
def ensureAllRows (shouldEmbedText : Bool) (eO : String → List ℚ) (sO : StoreOp → Bool) :
    List KRow → Except String (List StoreOp)
  | [] => .ok []
  | r :: rest =>
    match ensureEmbeddings shouldEmbedText eO sO r with
    | .error e => .error e
    | .ok (_, _, ops) =>
      match ensureAllRows shouldEmbedText eO sO rest with
      | .error e => .error e
      | .ok more => .ok (ops ++ more)

/-- The merge phase over all groups (the merge worker pool, flattened to
its sequential schedule), collecting the issued ops. -/
def runGroups (cfg : DedupeConfig) (eO : String → List ℚ)
    (dO : KRow → KRow → Except String LlmDecision) (sO : StoreOp → Bool) :
    List (List KRow) → Except String (List StoreOp)
  | [] => .ok []
  | g :: rest =>
    match applyMerge cfg eO dO sO g with
    | .error e => .error e
    | .ok tr =>
      match runGroups cfg eO dO sO rest with
      | .error e => .error e
      | .ok ops => .ok (tr.ops ++ ops)

/-- `main` of dedupeKeywords.ts, given the fetched rows: ensure
embeddings (persisting missing ones), build candidate pairs, cluster,
and only in apply mode run the merge engine; each early `return` (no
rows, no pairs, no groups, dry run) ends the run with only the
embedding-phase mutations issued. -/
def main (apply : Bool) (cfg : DedupeConfig) (shouldEmbedText : Bool)
    (threshold : ℚ) (limit maxGroupSize : Nat)
    (eO : String → List ℚ) (dO : KRow → KRow → Except String LlmDecision)
    (sO : StoreOp → Bool) (score : KRow → KRow → ℚ) (rows : List KRow) :
    Except String (List StoreOp) :=
  if rows.length = 0 then .ok []
  else
    match ensureAllRows shouldEmbedText eO sO rows with
    | .error e => .error e
    | .ok embOps =>
      let prs := buildPairs score threshold limit rows
      if prs.length = 0 then .ok embOps
      else
        match groupPairs maxGroupSize prs with
        | none => .error "clustering fuel exhausted"
        | some groups =>
          if groups.length = 0 then .ok embOps
          else if !apply then .ok embOps
          else
            match runGroups cfg eO dO sO groups with
            | .error e => .error e
            | .ok mops => .ok (embOps ++ mops)

/-! ### Dry-run mutation analysis (C2) -/

theorem ensureEmbeddings_ops_embed (shouldEmbedText : Bool) (eO : String → List ℚ)
    (sO : StoreOp → Bool) (row : KRow) :
    ∀ tE nE ops, ensureEmbeddings shouldEmbedText eO sO row = .ok (tE, nE, ops) →
      ∀ op ∈ ops, op.isEmbedUpdate = true := by
  intro tE nE ops h op hop
  cases ht : ensureTextStep shouldEmbedText eO row with
  | error e => simp [ensureEmbeddings, ht] at h
  | ok tp =>
    obtain ⟨tEv, tNew⟩ := tp
    cases hn : ensureNameStep eO row with
    | error e => simp [ensureEmbeddings, ht, hn] at h
    | ok np =>
      obtain ⟨nEv, nNew⟩ := np
      by_cases hNew : (tNew || nNew) = true
      · by_cases hsave : sO (StoreOp.updateEmbeds row.id (if tNew then tEv else none)
            (if nNew then nEv else none)) = true
        · cases nEv with
          | none =>
            simp [ensureEmbeddings, ht, hn, hNew] at h
            split at h <;>
              first
              | exact Except.noConfusion h
              | (split at h <;> exact Except.noConfusion h)
          | some l =>
            by_cases hl : l.isEmpty
            · simp [ensureEmbeddings, ht, hn, hNew, hsave, hl] at h
            · simp [ensureEmbeddings, ht, hn, hNew, hsave, hl] at h
              rw [← h.2.2] at hop
              rcases List.mem_singleton.mp hop with rfl
              rfl
        · simp [ensureEmbeddings, ht, hn, hNew, hsave] at h
      · cases nEv with
        | none => simp [ensureEmbeddings, ht, hn, hNew] at h
        | some l =>
          by_cases hl : l.isEmpty
          · simp [ensureEmbeddings, ht, hn, hNew, hl] at h
          · simp [ensureEmbeddings, ht, hn, hNew, hl] at h
            rw [h.2.2] at hop
            simp at hop

theorem ensureAllRows_ops_embed (shouldEmbedText : Bool) (eO : String → List ℚ)
    (sO : StoreOp → Bool) :
    ∀ (rows : List KRow) (ops : List StoreOp),
      ensureAllRows shouldEmbedText eO sO rows = .ok ops →
      ∀ op ∈ ops, op.isEmbedUpdate = true := by
  intro rows
  induction rows with
  | nil =>
    intro ops h op hop
    simp [ensureAllRows] at h
    rw [h] at hop
    simp at hop
  | cons r rest ih =>
    intro ops h op hop
    cases hr : ensureEmbeddings shouldEmbedText eO sO r with
    | error e => simp [ensureAllRows, hr] at h
    | ok trip =>
      obtain ⟨tE, nE, ops1⟩ := trip
      cases hrest : ensureAllRows shouldEmbedText eO sO rest with
      | error e => simp [ensureAllRows, hr, hrest] at h
      | ok more =>
        simp [ensureAllRows, hr, hrest] at h
        rw [← h] at hop
        rcases List.mem_append.mp hop with h1 | h2
        · exact ensureEmbeddings_ops_embed shouldEmbedText eO sO r tE nE ops1 hr op h1
        · exact ih more hrest op h2

/-- C2 (amended): a dry run (apply disabled) performs fetching,
embedding, candidate generation and clustering, but its store-operation
trace is exactly that of the embedding phase: no merge-phase update and
no delete is ever issued, and every operation of the trace is an
embedding-persist update. (As stated the claim fails: the embedding
phase of a dry run does mutate the store when a row's embedding is
missing — see the counterexample.) -/
theorem dry_run_mutates_only_embeddings (cfg : DedupeConfig) (shouldEmbedText : Bool)
    (threshold : ℚ) (limit maxGroupSize : Nat)
    (eO : String → List ℚ) (dO : KRow → KRow → Except String LlmDecision)
    (sO : StoreOp → Bool) (score : KRow → KRow → ℚ) (rows : List KRow) :
    main false cfg shouldEmbedText threshold limit maxGroupSize eO dO sO score rows
      = ensureAllRows shouldEmbedText eO sO rows ∧
    (∀ ops, ensureAllRows shouldEmbedText eO sO rows = .ok ops →
      ∀ op ∈ ops, op.isEmbedUpdate = true) := by
  constructor
  · simp only [main]
    by_cases h0 : rows.length = 0
    · rw [if_pos h0, List.length_eq_zero.mp h0]
      rfl
    · rw [if_neg h0]
      cases hE : ensureAllRows shouldEmbedText eO sO rows with
      | error e => rfl
      | ok embOps =>
        rcases groupPairs_total maxGroupSize (buildPairs score threshold limit rows)
          with ⟨gs, hgs⟩
        by_cases hp : (buildPairs score threshold limit rows).length = 0
        · simp [hp]
        · by_cases hg : gs.length = 0 <;> simp [hp, hgs, hg]
  · exact ensureAllRows_ops_embed shouldEmbedText eO sO rows

/-- Row with no stored embeddings, for the C2 counterexample. -/
def cexRowMissing : KRow := ⟨1, "kw", none, none, none⟩

/-- Counterexample for C2 as stated: in dry-run mode (apply disabled), a
row with missing stored embeddings makes the run issue a store mutation
— the embedding-persist update — during the embedding phase, so the
claim that a dry run issues no update on any row in any phase is false. -/
theorem dry_run_mutation_cex :
    main false ⟨true, true⟩ true (7/10) 30 0 cexEmbed cexDecideMerge (fun _ => true)
      wScore [cexRowMissing]
      = .ok [StoreOp.updateEmbeds 1 (some [1]) (some [1])] := rfl

/-- Witness for (amended) C2 at a concrete input. -/
theorem dry_run_mutates_only_embeddings_witness :
    main false ⟨true, true⟩ true (7/10) 30 0 cexEmbed cexDecideMerge (fun _ => true)
        wScore [cexRowMissing]
      = ensureAllRows true cexEmbed (fun _ => true) [cexRowMissing] ∧
    (StoreOp.updateEmbeds 1 (some [1]) (some [1])).isEmbedUpdate = true := by
  refine ⟨(dry_run_mutates_only_embeddings ⟨true, true⟩ true (7/10) 30 0 cexEmbed
    cexDecideMerge (fun _ => true) wScore [cexRowMissing]).1, ?_⟩
  exact (dry_run_mutates_only_embeddings ⟨true, true⟩ true (7/10) 30 0 cexEmbed
    cexDecideMerge (fun _ => true) wScore [cexRowMissing]).2
    [StoreOp.updateEmbeds 1 (some [1]) (some [1])] rfl _ (by simp)

end Dedupe
